import Mathlib

/-!
# HR Simulator dashboard: filter, cohort and KPI logic of `App.jsx`

A shallow embedding of the state and the derived values of the `App`
component in `src/frontend/src/App.jsx`, followed by the properties proved
about them.

Conventions of the embedding:

* JavaScript strings are Lean `String`s.  `String.prototype.toLowerCase` is a
  field of `Lowering` (the Unicode case tables are not part of the
  repository); `String.prototype.includes` is `jsIncludes`.
* JavaScript numbers that hold counts and scores are `Int`/`Nat`; numbers
  that go through a division are rationals, and every floating point
  operation is rounded through the `fl` field of a `Rounding`.  A division
  whose divisor is not guarded by a test yields a `JsNumber`, which can be
  `NaN` or an infinity.
* `useState` cells are the fields of `State`; the constants computed during a
  render are functions of those fields.
-/

namespace HRSim

/-! ## JavaScript built-ins used by the component -/

/-- Model of `String.prototype.toLowerCase`: an arbitrary function on strings that maps
the empty string to itself. -/
structure Lowering where
  toLowerCase : String → String
  toLowerCase_empty : toLowerCase "" = ""

/-- ASCII lowering, which agrees with `toLowerCase` on ASCII strings. -/
def asciiLowering : Lowering where
  toLowerCase := fun s => String.mk (s.data.map Char.toLower)
  toLowerCase_empty := rfl

/-- Model of IEEE-754 rounding of an exact result to a double: monotone, and the identity
on the dyadic rationals `m / 2^k` with `|m| ≤ 2^53` and `k ≤ 1022`, which are all
representable.  Overflow to `Infinity` is outside the model. -/
structure Rounding where
  fl : ℚ → ℚ
  fl_mono : ∀ x y : ℚ, x ≤ y → fl x ≤ fl y
  fl_dyadic : ∀ (m : ℤ) (k : ℕ), |m| ≤ 2 ^ 53 → k ≤ 1022 → fl ((m : ℚ) / 2 ^ k) = (m : ℚ) / 2 ^ k

/-- Exact arithmetic: the rounding that never rounds. -/
def exactRounding : Rounding where
  fl := fun x => x
  fl_mono := fun _ _ h => h
  fl_dyadic := fun _ _ _ _ => rfl

/-- `Array.prototype.filter`: visits the elements in ascending index order and appends to
the result those for which the callback returns true. -/
def jsFilter {α : Type} (callback : α → Bool) (xs : List α) : List α :=
  xs.foldl (fun acc x => if callback x then acc ++ [x] else acc) []

/-- `Array.prototype.some`: true when the callback returns true for some element. -/
def jsSome {α : Type} (callback : α → Bool) : List α → Bool
  | [] => false
  | x :: xs => if callback x then true else jsSome callback xs

/-- `Array.prototype.reduce` with an initial value. -/
def jsReduce {α β : Type} (callback : β → α → β) (initial : β) (xs : List α) : β :=
  xs.foldl callback initial

/-- `haystack.includes(needle)` on the characters of two strings: tries every start
position of the haystack in ascending order. -/
def includesChars (needle : List Char) : List Char → Bool
  | [] => needle.isPrefixOf []
  | c :: hay => needle.isPrefixOf (c :: hay) || includesChars needle hay

/-- `haystack.includes(needle)`. -/
def jsIncludes (haystack needle : String) : Bool :=
  includesChars needle.data haystack.data

/-- `Number.prototype.toFixed(0)`, as the integer its digits denote: the integer nearest
to `x`, the larger one (in absolute value) on a tie. -/
def toFixed0 (x : ℚ) : ℤ :=
  if x < 0 then -⌊-x + 1 / 2⌋ else ⌊x + 1 / 2⌋

/-- `parseInt` of a number or of the decimal string of a slider: truncation towards zero. -/
def parseInt (x : ℚ) : ℤ :=
  if x < 0 then ⌈x⌉ else ⌊x⌋

/-- A JavaScript number that came out of a division: a finite value, an infinity or
`NaN`. -/
inductive JsNumber where
  | finite (q : ℚ)
  | posInfinity
  | negInfinity
  | nan
  deriving DecidableEq, Repr

/-- The operator `/` on two finite numbers: by a zero divisor `0 / 0` is `NaN` and
anything else is an infinity of the sign of the dividend; otherwise the rounded
quotient. -/
def jsDivide (R : Rounding) (x y : ℚ) : JsNumber :=
  if y = 0 then
    if x = 0 then .nan else if 0 < x then .posInfinity else .negInfinity
  else .finite (R.fl (x / y))

/-! ## Data model -/

/-- The two fields `requestMatches` reads from a record. -/
structure Identity where
  name : String
  department : String
  deriving DecidableEq, Repr

/-- An element of the array returned by `GET /api/employees`. -/
structure Employee extends Identity where
  salary_lpa : ℚ
  absence_spells : ℤ
  deriving DecidableEq, Repr

/-- An element of the array returned by `POST /api/simulate`. -/
structure SimResult extends Identity where
  risk_score : ℤ
  deriving DecidableEq, Repr

/-- The value held by the `simResults` cell: `null`, an array of results, or any other
JSON value (object, number, string, boolean), of which only the truthiness is kept. -/
inductive SimData where
  | null
  | array (rs : List SimResult)
  | other (truthy : Bool)
  deriving DecidableEq, Repr

/-- JavaScript truthiness of the value in `simResults`; an array is truthy even when
empty. -/
def SimData.truthy : SimData → Bool
  | .null => false
  | .array _ => true
  | .other t => t

/-- The exceptions a render or a callback can throw. -/
inductive JsError where
  | typeError
  | syntaxError
  deriving DecidableEq, Repr

/-- The values of `activeTab`. -/
inductive Tab where
  | dashboard
  | simulation
  deriving DecidableEq, Repr

/-- The values of `viewMode`. -/
inductive ViewMode where
  | risk
  | safe
  deriving DecidableEq, Repr

/-- The department selection and the search text. -/
structure FilterContext where
  selectedDept : String
  searchQuery : String
  deriving DecidableEq, Repr

/-- The four simulation parameters, by numeric value: a slider reports a decimal string
and only when its position changes, so a number and its decimal string are not told
apart. -/
structure Params where
  bradfordTrigger : ℚ
  marketRatio : ℚ
  burnoutHours : ℚ
  noticeLimit : ℚ
  deriving DecidableEq, Repr

/-- The `useState` cells of `App`. -/
structure State where
  activeTab : Tab
  selectedDept : String
  searchQuery : String
  viewMode : ViewMode
  employees : List Employee
  loading : Bool
  error : Option String
  bradfordTrigger : ℚ
  marketRatio : ℚ
  burnoutHours : ℚ
  noticeLimit : ℚ
  simResults : SimData
  simLoading : Bool
  deriving DecidableEq, Repr

/-- The initial values passed to `useState`. -/
def State.initial : State where
  activeTab := .dashboard
  selectedDept := "All"
  searchQuery := ""
  viewMode := .risk
  employees := []
  loading := true
  error := none
  bradfordTrigger := 400
  marketRatio := 8 / 10
  burnoutHours := 60
  noticeLimit := 60
  simResults := .null
  simLoading := false

/-- The filter the render closes over. -/
def State.ctx (s : State) : FilterContext :=
  ⟨s.selectedDept, s.searchQuery⟩

/-- The parameters the render closes over. -/
def State.params (s : State) : Params :=
  ⟨s.bradfordTrigger, s.marketRatio, s.burnoutHours, s.noticeLimit⟩

/-! ## Filter logic and cohorts (lines 68-81) -/

/-- The predicate `requestMatches`. -/
def requestMatches (L : Lowering) (ctx : FilterContext) (emp : Identity) : Bool :=
  let matchesDept := decide (ctx.selectedDept = "All") || decide (emp.department = ctx.selectedDept)
  let matchesSearch := jsIncludes (L.toLowerCase emp.name) (L.toLowerCase ctx.searchQuery)
  matchesDept && matchesSearch

/-- The constant `filteredEmployees`. -/
def filteredEmployees (L : Lowering) (ctx : FilterContext) (employees : List Employee) :
    List Employee :=
  jsFilter (fun e => requestMatches L ctx e.toIdentity) employees

/-- The constant `riskList`; calling `.filter` on a truthy value that is not an array
throws. -/
def riskList (L : Lowering) (ctx : FilterContext) : SimData → Except JsError (List SimResult)
  | .null => .ok []
  | .array rs =>
    .ok (jsFilter (fun r => decide (r.risk_score > 0) && requestMatches L ctx r.toIdentity) rs)
  | .other t => if t then .error .typeError else .ok []

/-- The constant `safeList`. -/
def safeList (L : Lowering) (ctx : FilterContext) : SimData → Except JsError (List SimResult)
  | .null => .ok []
  | .array rs =>
    .ok (jsFilter (fun r => decide (r.risk_score = 0) && requestMatches L ctx r.toIdentity) rs)
  | .other t => if t then .error .typeError else .ok []

/-- The constant `displayList`. -/
def displayList (L : Lowering) (ctx : FilterContext) (viewMode : ViewMode)
    (simResults : SimData) : Except JsError (List SimResult) := do
  let risk ← riskList L ctx simResults
  let safe ← safeList L ctx simResults
  pure (if viewMode = .risk then risk else safe)

/-! ## KPI calculations (lines 115-127) -/

/-- The constant `totalEmployees`. -/
def totalEmployees (L : Lowering) (ctx : FilterContext) (employees : List Employee) : ℕ :=
  (filteredEmployees L ctx employees).length

/-- The running sum `filteredEmployees.reduce((sum, e) => sum + e.salary_lpa, 0)`. -/
def salarySum (R : Rounding) (L : Lowering) (ctx : FilterContext) (employees : List Employee) :
    ℚ :=
  jsReduce (fun sum e => R.fl (sum + e.salary_lpa)) 0 (filteredEmployees L ctx employees)

/-- The divisor `(totalEmployees || 1)`: the number `0` is falsy. -/
def salaryDivisor (L : Lowering) (ctx : FilterContext) (employees : List Employee) : ℕ :=
  if totalEmployees L ctx employees = 0 then 1 else totalEmployees L ctx employees

/-- The constant `avgSalary`. -/
def avgSalary (R : Rounding) (L : Lowering) (ctx : FilterContext) (employees : List Employee) :
    JsNumber :=
  jsDivide R (salarySum R L ctx employees) (salaryDivisor L ctx employees : ℚ)

/-- The static heuristic `filteredEmployees.filter(e => e.absence_spells > 5).length`. -/
def staticRiskCount (L : Lowering) (ctx : FilterContext) (employees : List Employee) : ℕ :=
  (jsFilter (fun e => decide (e.absence_spells > 5)) (filteredEmployees L ctx employees)).length

/-- The constant `highRiskCount`; the render has evaluated `riskList` before it gets
here, so an exception of `riskList` ends the render. -/
def highRiskCount (L : Lowering) (ctx : FilterContext) (employees : List Employee)
    (simResults : SimData) : Except JsError ℕ := do
  let risk ← riskList L ctx simResults
  pure (if simResults.truthy then risk.length else staticRiskCount L ctx employees)

/-- The expression of `retentionScore` for a given at-risk count: the integer denoted by
the string `toFixed(0)` returns, or the number `100`.  The difference of the two counts is
exact; the division and the multiplication are rounded. -/
def retentionOf (R : Rounding) (total high : ℕ) : ℤ :=
  if total > 0 then
    toFixed0 (max 0 (R.fl (R.fl ((((total : ℤ) - (high : ℤ) : ℤ) : ℚ) / (total : ℚ)) * 100)))
  else 100

/-- The constant `retentionScore`, by numeric value. -/
def retentionScore (R : Rounding) (L : Lowering) (ctx : FilterContext)
    (employees : List Employee) (simResults : SimData) : Except JsError ℤ := do
  let high ← highRiskCount L ctx employees simResults
  pure (retentionOf R (totalEmployees L ctx employees) high)

/-! ## Running and resetting a simulation (lines 84-113) -/

/-- The JSON body of `POST /api/simulate`. -/
structure SimRequest where
  bradford_trigger : ℤ
  market_compa_ratio : ℚ
  burnout_hours : ℚ
  notice_period_limit : ℤ
  deriving DecidableEq, Repr

/-- The body built by `runSimulation` from the parameters of the render it closes over. -/
def requestBody (p : Params) : SimRequest where
  bradford_trigger := parseInt p.bradfordTrigger
  market_compa_ratio := p.marketRatio
  burnout_hours := p.burnoutHours
  notice_period_limit := parseInt p.noticeLimit

/-- How the exchange with the scoring service ends: `fetch` rejects, `response.json()`
rejects, or `response.json()` yields a JSON value.  `fetch` resolves for every HTTP
status. -/
inductive Exchange where
  | networkError
  | invalidJson (status : ℕ)
  | json (status : ℕ) (data : SimData)
  deriving DecidableEq, Repr

/-- The statements of `runSimulation` before the first `await`. -/
def runSimulationStart (s : State) : State :=
  { s with activeTab := .simulation, simLoading := true }

/-- The body of the `try` block from the point where the exchange ends: the state written
so far and whether an exception left the block. -/
def runSimulationTry (s : State) : Exchange → State × Except JsError Unit
  | .networkError => (s, .error .typeError)
  | .invalidJson _ => (s, .error .syntaxError)
  | .json _ data =>
    let s1 := { s with simResults := data }
    match data with
    | .array rs =>
      let hasRisks := jsSome (fun r => decide (r.risk_score > 0)) rs
      ({ s1 with viewMode := if hasRisks then .risk else .safe }, .ok ())
    | _ => (s1, .error .typeError)

/-- The rest of `runSimulation` once the exchange has ended: the `try` body, the `catch`
block (an alert; the second component says whether it was shown) and
`setSimLoading(false)`. -/
def runSimulationSettle (s : State) (x : Exchange) : State × Bool :=
  match runSimulationTry s x with
  | (s1, .ok _) => ({ s1 with simLoading := false }, false)
  | (s1, .error _) => ({ s1 with simLoading := false }, true)

/-- The handler `resetSimulation`. -/
def resetSimulation (s : State) : State :=
  { s with simResults := .null, activeTab := .dashboard }

/-! ## Step model of the component

The debounce effect (lines 40-49), the handlers and the asynchronous part of
`runSimulation`, as transitions of a machine that also holds what the browser holds for
the component: the clock, the table of pending timeouts and the requests in flight. -/

/-- The caller of `runSimulation`: the timer callback of the debounce effect, or the click
handler of the Run button. -/
inductive Origin where
  | debounce
  | manual
  deriving DecidableEq, Repr

/-- An entry of the browser's table of pending timeouts created by the effect: its id, the
earliest time it may fire, and the `activeTab` and parameters of the render whose closure
the callback holds. -/
structure Timer where
  id : ℕ
  deadline : ℕ
  activeTab : Tab
  params : Params
  deriving DecidableEq, Repr

/-- A `fetch` to `/api/simulate` that has not settled yet. -/
structure Request where
  origin : Origin
  body : SimRequest
  deriving DecidableEq, Repr

/-- The component together with its environment. -/
structure Machine where
  ui : State
  now : ℕ
  timers : List Timer
  nextTimerId : ℕ
  cleanup : Option ℕ
  inflight : List Request
  directoryPending : Bool
  alerts : ℕ
  deriving DecidableEq, Repr

/-- The delay passed to `setTimeout`, in milliseconds. -/
def debounceMs : ℕ := 500

/-- The dependency array of the debounce effect. -/
def deps (s : State) : Params × Tab :=
  (s.params, s.activeTab)

/-- `clearTimeout(id)`: removes the entry with that id, if it is still pending. -/
def clearTimeout (id : ℕ) (timers : List Timer) : List Timer :=
  timers.filter (fun t => t.id != id)

/-- One run of the debounce effect: the cleanup returned by the previous run, then
`setTimeout` for the current render. -/
def runEffect (m : Machine) : Machine :=
  let cleared :=
    match m.cleanup with
    | some id => clearTimeout id m.timers
    | none => m.timers
  { m with
    timers := cleared ++ [⟨m.nextTimerId, m.now + debounceMs, m.ui.activeTab, m.ui.params⟩]
    nextTimerId := m.nextTimerId + 1
    cleanup := some m.nextTimerId }

/-- A render with the new state; the effect runs again when a dependency changed. -/
def commit (m : Machine) (s : State) : Machine :=
  if deps s = deps m.ui then { m with ui := s } else runEffect { m with ui := s }

/-- The component after mounting: initial state, the debounce effect has run once and the
directory fetch is in flight. -/
def Machine.mount : Machine :=
  runEffect
    { ui := State.initial, now := 0, timers := [], nextTimerId := 0, cleanup := none,
      inflight := [], directoryPending := true, alerts := 0 }

/-- A call of `runSimulation` up to its first `await`: the two setters, then the request,
whose body is built from the parameters the called closure holds. -/
def invoke (m : Machine) (origin : Origin) (p : Params) : Machine :=
  let m1 := commit m (runSimulationStart m.ui)
  { m1 with inflight := m1.inflight ++ [⟨origin, requestBody p⟩] }

/-- The four sliders. -/
inductive ParamName where
  | bradfordTrigger
  | marketRatio
  | burnoutHours
  | noticeLimit
  deriving DecidableEq, Repr

/-- The setter a slider calls. -/
def setParam (s : State) : ParamName → ℚ → State
  | .bradfordTrigger, v => { s with bradfordTrigger := v }
  | .marketRatio, v => { s with marketRatio := v }
  | .burnoutHours, v => { s with burnoutHours := v }
  | .noticeLimit, v => { s with noticeLimit := v }

/-- What can happen to the mounted component. -/
inductive Event where
  | editParam (which : ParamName) (value : ℚ)
  | selectTab (tab : Tab)
  | advance (ms : ℕ)
  | timerExpiry (id : ℕ)
  | manualRun
  | response (index : ℕ) (x : Exchange)
  | reset
  | selectDept (dept : String)
  | search (query : String)
  | selectView (view : ViewMode)
  | directory (result : Option (List Employee))
  deriving DecidableEq, Repr

/-- One transition; `none` when the event cannot happen in this state (no such pending
timer or its delay has not elapsed, no such request in flight, directory already
settled).  Handlers are taken as callable in every state; `offered` says which of them
the rendered page exposes. -/
def step (m : Machine) : Event → Option Machine
  | .editParam which value => some (commit m (setParam m.ui which value))
  | .selectTab tab => some (commit m { m.ui with activeTab := tab })
  | .advance ms => some { m with now := m.now + ms }
  | .timerExpiry id =>
    match m.timers.find? (fun t => t.id == id) with
    | none => none
    | some t =>
      if t.deadline ≤ m.now then
        let m1 := { m with timers := clearTimeout id m.timers }
        some (if t.activeTab = .simulation then invoke m1 .debounce t.params else m1)
      else none
  | .manualRun => some (invoke m .manual m.ui.params)
  | .response index x =>
    match m.inflight[index]? with
    | none => none
    | some _ =>
      let settled := runSimulationSettle m.ui x
      let m1 := commit m settled.1
      some { m1 with
        inflight := m1.inflight.eraseIdx index
        alerts := if settled.2 then m1.alerts + 1 else m1.alerts }
  | .reset => some (commit m (resetSimulation m.ui))
  | .selectDept dept => some (commit m { m.ui with selectedDept := dept })
  | .search query => some (commit m { m.ui with searchQuery := query })
  | .selectView view => some (commit m { m.ui with viewMode := view })
  | .directory result =>
    if m.directoryPending then
      match result with
      | some data =>
        some { commit m { m.ui with employees := data, loading := false } with
          directoryPending := false }
      | none =>
        some { commit m { m.ui with
            error := some "Error: Is your Python Server running? (Run 'run_backend.bat'!)"
            loading := false } with
          directoryPending := false }
    else none

/-- The page is on screen: the render does not throw and gets past the two early
returns. -/
def State.rendered (s : State) : Bool :=
  (s.simResults != .other true) && !s.loading && s.error.isNone

/-- Whether the rendered page exposes the event: sliders, Run, Reset and the cohort
buttons exist only on the simulation tab, Run is disabled while `simLoading`, Reset and
the cohort buttons need a truthy `simResults`.  Events of the environment are always
possible. -/
def offered (m : Machine) : Event → Bool
  | .editParam _ _ => m.ui.rendered && decide (m.ui.activeTab = .simulation)
  | .selectTab _ => m.ui.rendered
  | .advance _ => true
  | .timerExpiry _ => true
  | .manualRun => m.ui.rendered && decide (m.ui.activeTab = .simulation) && !m.ui.simLoading
  | .response _ _ => true
  | .reset => m.ui.rendered && decide (m.ui.activeTab = .simulation) && m.ui.simResults.truthy
  | .selectDept _ => m.ui.rendered
  | .search _ => m.ui.rendered
  | .selectView _ =>
    m.ui.rendered && decide (m.ui.activeTab = .simulation) && m.ui.simResults.truthy
  | .directory _ => true

/-- Runs a sequence of events from a machine state. -/
def run (m : Machine) : List Event → Option Machine
  | [] => some m
  | e :: es =>
    match step m e with
    | none => none
    | some m1 => run m1 es

/-- Runs a sequence of events, each of which must be exposed by the page when it
happens. -/
def runOffered (m : Machine) : List Event → Option Machine
  | [] => some m
  | e :: es =>
    if offered m e then
      match step m e with
      | none => none
      | some m1 => runOffered m1 es
    else none

/-- The states the mounted component can get into. -/
def Reachable (m : Machine) : Prop :=
  ∃ es : List Event, run Machine.mount es = some m

/-- The requests in flight that were started by the debounce path. -/
def debounceInFlight (m : Machine) : List Request :=
  m.inflight.filter (fun r => decide (r.origin = .debounce))

/-! ## Example data and invariants -/

/-- The two-record simulation response of the scenarios: `A` at risk in `Eng`, `B` safe in
`Sales`. -/
def exampleResults : List SimResult :=
  [⟨⟨"A", "Eng"⟩, 80⟩, ⟨⟨"B", "Sales"⟩, 0⟩]

/-- The two-record directory of the KPI scenario. -/
def exampleDirectory : List Employee :=
  [⟨⟨"A", "Eng"⟩, 10, 6⟩, ⟨⟨"B", "Sales"⟩, 8, 1⟩]

/-- No department selected and no search text. -/
def noFilter : FilterContext :=
  ⟨"All", ""⟩

/-- A state that shows the two-record result set, with a run just started. -/
def showingResults : State :=
  runSimulationStart { State.initial with loading := false, simResults := .array exampleResults }

/-- The invariant of the timeout table: at most one entry is pending, and every pending
entry is the one the current cleanup will clear. -/
def TimerInv (m : Machine) : Prop :=
  m.timers.length ≤ 1 ∧ ∀ t ∈ m.timers, m.cleanup = some t.id

/-- The trace in which two debounced requests overlap: the directory loads, the user
opens the simulation tab, the timer armed by that fires, the user moves a slider before
the response has arrived, and the timer armed by that fires too. -/
def overlapTrace : List Event :=
  [.directory (some exampleDirectory), .selectTab .simulation, .advance 500, .timerExpiry 1,
    .editParam .bradfordTrigger 450, .advance 500, .timerExpiry 2]

/-! ## Calls made by the debounce path -/

/-- The request the timer callback of the event starts, if any: the event is the expiry of
a pending timer whose delay has elapsed and whose closure saw the simulation tab. -/
def started (m : Machine) : Event → Option Request
  | .timerExpiry id =>
    match m.timers.find? (fun t => t.id == id) with
    | none => none
    | some t =>
      if t.deadline ≤ m.now ∧ t.activeTab = .simulation then
        some ⟨.debounce, requestBody t.params⟩
      else none
  | _ => none

/-- The requests started by timer callbacks along a run, in order; the run stops at the
first event that cannot happen. -/
def debounceCalls (m : Machine) : List Event → List Request
  | [] => []
  | e :: es =>
    match step m e with
    | none => []
    | some m1 => (started m e).toList ++ debounceCalls m1 es

/-- Events that leave the overview tab active: everything but opening the simulation tab
and calling `runSimulation` by hand. -/
def staysOnOverview : Event → Bool
  | .selectTab .simulation => false
  | .manualRun => false
  | _ => true

/-- Events that are neither a parameter edit nor a tab change. -/
def quiet : Event → Bool
  | .editParam _ _ => false
  | .selectTab _ => false
  | .reset => false
  | _ => true

/-- Events that neither settle a request nor call `runSimulation` by hand, so that any
change of the requests in flight comes from a timer callback. -/
def silent : Event → Bool
  | .response _ _ => false
  | .manualRun => false
  | _ => true

/-- The parameters after a slider has been set. -/
def Params.set (p : Params) : ParamName → ℚ → Params
  | .bradfordTrigger, v => { p with bradfordTrigger := v }
  | .marketRatio, v => { p with marketRatio := v }
  | .burnoutHours, v => { p with burnoutHours := v }
  | .noticeLimit, v => { p with noticeLimit := v }

/-- The time that passes during a sequence of events, in milliseconds. -/
def elapsed : List Event → ℕ
  | [] => 0
  | .advance ms :: es => ms + elapsed es
  | _ :: es => elapsed es

/-- An edit of a burst after the first: what happens between the previous edit and this
one (time passing, responses, other handlers), the slider and its new value. -/
structure LaterEdit where
  between : List Event
  which : ParamName
  value : ℚ
  deriving DecidableEq, Repr

/-- The events of the edits that follow the first edit of a burst. -/
def laterEvents : List LaterEdit → List Event
  | [] => []
  | e :: es => e.between ++ .editParam e.which e.value :: laterEvents es

/-- The events of a burst: a first edit and the edits that follow it. -/
def burstEvents (which : ParamName) (value : ℚ) (later : List LaterEdit) : List Event :=
  .editParam which value :: laterEvents later

/-- The parameters after the setters of the edits have run. -/
def editAll (p : Params) : List LaterEdit → Params
  | [] => p
  | e :: es => editAll (p.set e.which e.value) es

/-- The request a timer callback makes after the burst: the body holds the parameters
left by the last edit. -/
def burstRequest (p : Params) (which : ParamName) (value : ℚ) (later : List LaterEdit) :
    Request :=
  ⟨.debounce, requestBody (editAll (p.set which value) later)⟩

/-- Every edit comes less than the debounce delay after the previous one, with neither an
edit nor a tab change in between, and moves its slider to a new value (a slider reports
nothing when its position stays). -/
def isBurst (p : Params) : List LaterEdit → Bool
  | [] => true
  | e :: es =>
    e.between.all quiet && decide (elapsed e.between < debounceMs)
      && decide (p.set e.which e.value ≠ p) && isBurst (p.set e.which e.value) es

/-- Every pending timer holds the `activeTab` and the parameters of the current render. -/
def TimerSync (m : Machine) : Prop :=
  ∀ t ∈ m.timers, t.activeTab = m.ui.activeTab ∧ t.params = m.ui.params

/-- The mounted component with the directory loaded and the simulation tab open. -/
def onSimulationTab : Machine :=
  (run Machine.mount [.directory (some exampleDirectory), .selectTab .simulation]).getD
    Machine.mount

/-- Four edits that follow a first one, each within the debounce delay of the one
before; the department filter changes during the burst. -/
def exampleLaterEdits : List LaterEdit :=
  [⟨[.advance 100], .bradfordTrigger, 500⟩, ⟨[.advance 100], .marketRatio, 9 / 10⟩,
    ⟨[.advance 150, .selectDept "Eng", .advance 50], .burnoutHours, 65⟩,
    ⟨[.advance 499], .noticeLimit, 75⟩]

/-- Two slider edits on the overview tab, each followed by the expiry of the timer it
armed. -/
def overviewTrace : List Event :=
  [.editParam .bradfordTrigger 450, .advance 500, .timerExpiry 1,
    .editParam .noticeLimit 75, .advance 600, .timerExpiry 2]

/-- The state right after an edit on the simulation tab: exactly the timer the edit
armed is pending, it is due one debounce delay from now, and its closure holds the
simulation tab and the current parameters. -/
def Armed (m : Machine) (T : Timer) : Prop :=
  TimerInv m ∧ m.ui.activeTab = .simulation ∧ m.timers = [T]
    ∧ T.deadline = m.now + debounceMs ∧ T.activeTab = .simulation ∧ T.params = m.ui.params

/-! # Properties -/

/-! ## Lemmas about the built-ins -/

theorem jsFilter_foldl {α : Type} (callback : α → Bool) (xs acc : List α) :
    xs.foldl (fun acc x => if callback x then acc ++ [x] else acc) acc
      = acc ++ xs.filter callback := by
  induction xs generalizing acc with
  | nil => simp
  | cons x xs ih =>
    rw [List.foldl_cons, ih]
    by_cases hx : callback x = true
    · simp [hx, List.filter_cons]
    · simp [hx, List.filter_cons]

theorem jsFilter_eq_filter {α : Type} (callback : α → Bool) (xs : List α) :
    jsFilter callback xs = xs.filter callback := by
  unfold jsFilter
  rw [jsFilter_foldl]
  simp

theorem jsSome_eq_any {α : Type} (callback : α → Bool) (xs : List α) :
    jsSome callback xs = xs.any callback := by
  induction xs with
  | nil => rfl
  | cons x xs ih =>
    by_cases hx : callback x = true
    · simp [jsSome, hx]
    · simp [jsSome, hx, ih]

theorem includesChars_iff (needle hay : List Char) :
    includesChars needle hay = true ↔ needle <:+: hay := by
  induction hay with
  | nil => simp [includesChars]
  | cons c hay ih =>
    simp only [includesChars, Bool.or_eq_true, ih, List.infix_cons_iff,
      List.isPrefixOf_iff_prefix]

theorem includesChars_nil (hay : List Char) : includesChars [] hay = true :=
  (includesChars_iff [] hay).2 List.nil_infix

theorem enumFrom_filter_snd {α : Type} (q : α → Bool) (xs : List α) (n : ℕ) :
    ((xs.enumFrom n).filter (fun p => q p.2)).map Prod.snd = xs.filter q := by
  induction xs generalizing n with
  | nil => rfl
  | cons x xs ih =>
    by_cases hx : q x = true
    · simp [List.enumFrom_cons, List.filter_cons, hx, ih]
    · simp [List.enumFrom_cons, List.filter_cons, hx, ih]

theorem filter_split_perm {α : Type} (a b c : α → Bool) (xs : List α)
    (hc : ∀ x ∈ xs, c x = (a x || b x)) (hab : ∀ x ∈ xs, ¬ (a x = true ∧ b x = true)) :
    (xs.filter a ++ xs.filter b).Perm (xs.filter c) := by
  induction xs with
  | nil => simp
  | cons x xs ih =>
    have ih1 := ih (fun y hy => hc y (List.mem_cons_of_mem _ hy))
      (fun y hy => hab y (List.mem_cons_of_mem _ hy))
    have hcx := hc x (List.mem_cons_self _ _)
    have habx := hab x (List.mem_cons_self _ _)
    cases ha : a x <;> cases hb : b x
    · simpa [List.filter_cons, ha, hb, hcx] using ih1
    · simp only [List.filter_cons, ha, hb, hcx, Bool.or_true, if_true]
      exact List.perm_middle.trans (List.Perm.cons x ih1)
    · simp only [List.filter_cons, ha, hb, hcx, Bool.or_false, if_true, List.cons_append]
      simpa using List.Perm.cons x ih1
    · exact absurd ⟨ha, hb⟩ habx

/-! ## Filter and cohorts -/

theorem requestMatches_noFilter (L : Lowering) (emp : Identity) :
    requestMatches L noFilter emp = true := by
  simp [requestMatches, noFilter, jsIncludes, L.toLowerCase_empty, includesChars_nil]

/-- C1: when every score is an integer in 0..100, the two cohorts partition the filtered
result set by position: `riskList` and `safeList` are the records at two disjoint sets of
positions of `simResults`, these positions together are exactly the positions of the
records that satisfy `requestMatches`, and the two lengths add up to the number of such
records. -/
theorem cohorts_partition (L : Lowering) (ctx : FilterContext) (rs : List SimResult)
    (hrange : ∀ r ∈ rs, 0 ≤ r.risk_score ∧ r.risk_score ≤ 100) :
    riskList L ctx (.array rs)
        = .ok ((rs.enum.filter (fun p =>
            decide (p.2.risk_score > 0) && requestMatches L ctx p.2.toIdentity)).map Prod.snd)
      ∧ safeList L ctx (.array rs)
        = .ok ((rs.enum.filter (fun p =>
            decide (p.2.risk_score = 0) && requestMatches L ctx p.2.toIdentity)).map Prod.snd)
      ∧ (∀ p : ℕ × SimResult,
          p ∈ rs.enum.filter (fun p =>
            decide (p.2.risk_score > 0) && requestMatches L ctx p.2.toIdentity) →
          p ∉ rs.enum.filter (fun p =>
            decide (p.2.risk_score = 0) && requestMatches L ctx p.2.toIdentity))
      ∧ (rs.enum.filter (fun p =>
            decide (p.2.risk_score > 0) && requestMatches L ctx p.2.toIdentity)
          ++ rs.enum.filter (fun p =>
            decide (p.2.risk_score = 0) && requestMatches L ctx p.2.toIdentity)).Perm
          (rs.enum.filter (fun p => requestMatches L ctx p.2.toIdentity))
      ∧ ∃ risk safe : List SimResult,
          riskList L ctx (.array rs) = .ok risk ∧ safeList L ctx (.array rs) = .ok safe
            ∧ risk.length + safe.length
              = (rs.filter (fun r => requestMatches L ctx r.toIdentity)).length := by
  have hrisk : riskList L ctx (.array rs)
      = .ok ((rs.enum.filter (fun p =>
          decide (p.2.risk_score > 0) && requestMatches L ctx p.2.toIdentity)).map Prod.snd) := by
    simp only [riskList, jsFilter_eq_filter, List.enum]
    rw [enumFrom_filter_snd
      (fun r : SimResult => decide (r.risk_score > 0) && requestMatches L ctx r.toIdentity)]
  have hsafe : safeList L ctx (.array rs)
      = .ok ((rs.enum.filter (fun p =>
          decide (p.2.risk_score = 0) && requestMatches L ctx p.2.toIdentity)).map Prod.snd) := by
    simp only [safeList, jsFilter_eq_filter, List.enum]
    rw [enumFrom_filter_snd
      (fun r : SimResult => decide (r.risk_score = 0) && requestMatches L ctx r.toIdentity)]
  have hperm : (rs.enum.filter (fun p =>
            decide (p.2.risk_score > 0) && requestMatches L ctx p.2.toIdentity)
          ++ rs.enum.filter (fun p =>
            decide (p.2.risk_score = 0) && requestMatches L ctx p.2.toIdentity)).Perm
          (rs.enum.filter (fun p => requestMatches L ctx p.2.toIdentity)) := by
    apply filter_split_perm
    · intro p hp
      have hmem : p.2 ∈ rs := by
        obtain ⟨hlt, heq⟩ := List.mem_enum hp
        rw [heq]
        exact List.getElem_mem hlt
      have h0 := (hrange p.2 hmem).1
      by_cases hz : p.2.risk_score = 0
      · simp [hz]
      · have hpos : 0 < p.2.risk_score := lt_of_le_of_ne h0 (Ne.symm hz)
        simp [hz, hpos]
    · intro p _ hboth
      simp only [Bool.and_eq_true, decide_eq_true_eq] at hboth
      omega
  refine ⟨hrisk, hsafe, ?_, hperm, ?_⟩
  · intro p h1 h2
    simp only [List.mem_filter, Bool.and_eq_true, decide_eq_true_eq] at h1 h2
    omega
  · refine ⟨_, _, hrisk, hsafe, ?_⟩
    have hlen := hperm.length_eq
    have hm : (rs.filter (fun r => requestMatches L ctx r.toIdentity)).length
        = (rs.enum.filter (fun p => requestMatches L ctx p.2.toIdentity)).length := by
      rw [← enumFrom_filter_snd (fun r : SimResult => requestMatches L ctx r.toIdentity) rs 0]
      simp [List.enum]
    rw [hm, ← hlen]
    simp

/-- C1, at the two-record response with no filter: one record in each cohort. -/
theorem cohorts_partition_witness :
    (∀ r ∈ exampleResults, 0 ≤ r.risk_score ∧ r.risk_score ≤ 100)
      ∧ ∃ risk safe : List SimResult,
          riskList asciiLowering noFilter (.array exampleResults) = .ok risk
            ∧ safeList asciiLowering noFilter (.array exampleResults) = .ok safe
            ∧ risk.length + safe.length
              = (exampleResults.filter
                  (fun r => requestMatches asciiLowering noFilter r.toIdentity)).length :=
  ⟨by decide,
    (cohorts_partition asciiLowering noFilter exampleResults (by decide)).2.2.2.2⟩

/-- C8: `requestMatches` holds exactly when the department is selected (or `All` is) and
the lowered search text occurs in the lowered name; with `All` and an empty search every
record matches; the directory and both cohorts are filtered with this one predicate. -/
theorem requestMatches_spec (L : Lowering) (ctx : FilterContext) (emp : Identity) :
    (requestMatches L ctx emp = true ↔
        (ctx.selectedDept = "All" ∨ emp.department = ctx.selectedDept)
          ∧ (L.toLowerCase ctx.searchQuery).data <:+: (L.toLowerCase emp.name).data)
      ∧ requestMatches L ⟨"All", ""⟩ emp = true
      ∧ (∀ employees : List Employee,
          filteredEmployees L ctx employees
            = employees.filter (fun e => requestMatches L ctx e.toIdentity))
      ∧ (∀ rs : List SimResult,
          riskList L ctx (.array rs)
            = .ok (rs.filter (fun r =>
                decide (r.risk_score > 0) && requestMatches L ctx r.toIdentity)))
      ∧ (∀ rs : List SimResult,
          safeList L ctx (.array rs)
            = .ok (rs.filter (fun r =>
                decide (r.risk_score = 0) && requestMatches L ctx r.toIdentity))) := by
  refine ⟨?_, requestMatches_noFilter L emp, ?_, ?_, ?_⟩
  · simp [requestMatches, jsIncludes, includesChars_iff]
  · intro employees
    simp [filteredEmployees, jsFilter_eq_filter]
  · intro rs
    simp [riskList, jsFilter_eq_filter]
  · intro rs
    simp [safeList, jsFilter_eq_filter]

/-- C9: for a result array, `riskList` is the records with a positive score that satisfy
`requestMatches` and `safeList` those with score zero that do, each in the order of
`simResults`; for `null` both are empty. -/
theorem cohorts_are_ordered_subsequences (L : Lowering) (ctx : FilterContext)
    (rs : List SimResult) :
    (∃ risk safe : List SimResult,
        riskList L ctx (.array rs) = .ok risk ∧ safeList L ctx (.array rs) = .ok safe
          ∧ risk = rs.filter (fun r =>
              decide (0 < r.risk_score ∧ requestMatches L ctx r.toIdentity = true))
          ∧ safe = rs.filter (fun r =>
              decide (r.risk_score = 0 ∧ requestMatches L ctx r.toIdentity = true))
          ∧ risk.Sublist rs ∧ safe.Sublist rs)
      ∧ riskList L ctx .null = .ok [] ∧ safeList L ctx .null = .ok [] := by
  refine ⟨⟨_, _, rfl, rfl, ?_, ?_, ?_, ?_⟩, rfl, rfl⟩
  · rw [jsFilter_eq_filter]
    congr 1
    funext r
    simp [Bool.decide_and]
  · rw [jsFilter_eq_filter]
    congr 1
    funext r
    simp [Bool.decide_and]
  · rw [jsFilter_eq_filter]
    exact List.filter_sublist _
  · rw [jsFilter_eq_filter]
    exact List.filter_sublist _

/-! ## KPIs -/

theorem Rounding.fl_int (R : Rounding) (m : ℤ) (hm : |m| ≤ 2 ^ 53) : R.fl (m : ℚ) = (m : ℚ) := by
  have h := R.fl_dyadic m 0 hm (Nat.zero_le _)
  simpa using h

theorem toFixed0_range (x : ℚ) (h0 : 0 ≤ x) (h100 : x ≤ 100) :
    0 ≤ toFixed0 x ∧ toFixed0 x ≤ 100 := by
  have hneg : ¬ x < 0 := not_lt.mpr h0
  simp only [toFixed0, hneg, if_false]
  constructor
  · apply Int.floor_nonneg.2
    linarith
  · have hlt : ⌊x + 1 / 2⌋ < 101 := by
      apply Int.floor_lt.2
      push_cast
      linarith
    omega

theorem retentionOf_range (R : Rounding) (total high : ℕ) :
    0 ≤ retentionOf R total high ∧ retentionOf R total high ≤ 100
      ∧ (total = 0 → retentionOf R total high = 100) := by
  by_cases ht : total > 0
  · have htne : total ≠ 0 := Nat.pos_iff_ne_zero.1 ht
    have htq : (0 : ℚ) < (total : ℚ) := by exact_mod_cast ht
    simp only [retentionOf, ht, if_true]
    have hratio : ((((total : ℤ) - (high : ℤ) : ℤ) : ℚ) / (total : ℚ)) ≤ 1 := by
      rw [div_le_one htq]
      push_cast
      have hh : (0 : ℚ) ≤ (high : ℚ) := Nat.cast_nonneg high
      linarith
    have h1 : R.fl ((((total : ℤ) - (high : ℤ) : ℤ) : ℚ) / (total : ℚ)) ≤ 1 := by
      have hmono := R.fl_mono _ _ hratio
      have hone := R.fl_int 1 (by norm_num)
      simp only [Int.cast_one] at hone
      rw [hone] at hmono
      exact hmono
    have h2 : R.fl (R.fl ((((total : ℤ) - (high : ℤ) : ℤ) : ℚ) / (total : ℚ)) * 100) ≤ 100 := by
      have hle : R.fl ((((total : ℤ) - (high : ℤ) : ℤ) : ℚ) / (total : ℚ)) * 100 ≤ 100 := by
        linarith
      have hmono := R.fl_mono _ _ hle
      have hh := R.fl_int 100 (by norm_num)
      simp only [Int.cast_ofNat] at hh
      rw [hh] at hmono
      exact hmono
    have hr := toFixed0_range
      (max 0 (R.fl (R.fl ((((total : ℤ) - (high : ℤ) : ℤ) : ℚ) / (total : ℚ)) * 100)))
      (le_max_left _ _) (max_le (by norm_num) h2)
    exact ⟨hr.1, hr.2, fun h => absurd h htne⟩
  · simp [retentionOf, ht]

/-- C3: whenever the render gets as far as `retentionScore` (`simResults` is `null`, any
result array, or another falsy value), its numeric value is an integer between 0 and 100,
and it is 100 when `totalEmployees` is 0. -/
theorem retentionScore_range (R : Rounding) (L : Lowering) (ctx : FilterContext)
    (employees : List Employee) (simResults : SimData) (h : simResults ≠ .other true) :
    ∃ v : ℤ, retentionScore R L ctx employees simResults = .ok v
      ∧ 0 ≤ v ∧ v ≤ 100 ∧ (totalEmployees L ctx employees = 0 → v = 100) := by
  have key : ∃ high : ℕ, highRiskCount L ctx employees simResults = .ok high := by
    cases simResults with
    | null => exact ⟨_, rfl⟩
    | array rs => exact ⟨_, rfl⟩
    | other t =>
      cases t with
      | false => exact ⟨_, rfl⟩
      | true => exact absurd rfl h
  obtain ⟨high, hhigh⟩ := key
  refine ⟨retentionOf R (totalEmployees L ctx employees) high, ?_, ?_⟩
  · simp only [retentionScore, hhigh]
    rfl
  · exact retentionOf_range R _ high

/-- C3, at a response with two records at risk and a directory of one employee: the risk
cohort is larger than the directory and the score stays within 0..100. -/
theorem retentionScore_range_witness :
    SimData.array [⟨⟨"A", "Eng"⟩, 80⟩, ⟨⟨"C", "Eng"⟩, 30⟩] ≠ SimData.other true
      ∧ ∃ v : ℤ, retentionScore exactRounding asciiLowering noFilter [⟨⟨"A", "Eng"⟩, 10, 6⟩]
            (.array [⟨⟨"A", "Eng"⟩, 80⟩, ⟨⟨"C", "Eng"⟩, 30⟩]) = .ok v
          ∧ 0 ≤ v ∧ v ≤ 100
          ∧ (totalEmployees asciiLowering noFilter [⟨⟨"A", "Eng"⟩, 10, 6⟩] = 0 → v = 100) :=
  ⟨by decide,
    retentionScore_range exactRounding asciiLowering noFilter [⟨⟨"A", "Eng"⟩, 10, 6⟩] _
      (by decide)⟩

theorem filteredEmployees_noFilter (L : Lowering) (employees : List Employee) :
    filteredEmployees L noFilter employees = employees := by
  simp [filteredEmployees, jsFilter_eq_filter, requestMatches_noFilter]

theorem salarySum_exampleDirectory (R : Rounding) (L : Lowering) :
    salarySum R L noFilter exampleDirectory = 18 := by
  have h10 : R.fl 10 = 10 := by simpa using R.fl_int 10 (by norm_num)
  have h18 : R.fl 18 = 18 := by simpa using R.fl_int 18 (by norm_num)
  simp only [salarySum, filteredEmployees_noFilter, exampleDirectory, jsReduce, List.foldl_cons,
    List.foldl_nil, zero_add, h10]
  norm_num [h18]

theorem retentionOf_two_one (R : Rounding) : retentionOf R 2 1 = 50 := by
  have hhalf : R.fl (1 / 2) = 1 / 2 := by simpa using R.fl_dyadic 1 1 (by norm_num) (by norm_num)
  have h50 : R.fl 50 = 50 := by simpa using R.fl_int 50 (by norm_num)
  have hq : ((((2 : ℕ) : ℤ) - ((1 : ℕ) : ℤ) : ℤ) : ℚ) / ((2 : ℕ) : ℚ) = 1 / 2 := by norm_num
  have hm : (1 / 2 : ℚ) * 100 = 50 := by norm_num
  simp only [retentionOf, hq, hhalf, hm, h50]
  have hmax : max (0 : ℚ) 50 = 50 := max_eq_right (by norm_num)
  have hneg : ¬ (50 : ℚ) < 0 := by norm_num
  simp only [hmax, toFixed0, hneg, if_false]
  norm_num [Int.floor_eq_iff]

/-- C5: `highRiskCount` is the length of `riskList` whenever `simResults` is a result
array, the empty one included, and with `simResults` `null` it is the number of filtered
employees whose `absence_spells` exceeds 5; for the two-employee directory with no
simulation and no filter, headcount is 2, average salary 9, at-risk count 1 and stability
50. -/
theorem highRiskCount_spec (R : Rounding) (L : Lowering) (ctx : FilterContext)
    (employees : List Employee) :
    (∀ rs : List SimResult, ∃ risk : List SimResult,
        riskList L ctx (.array rs) = .ok risk
          ∧ highRiskCount L ctx employees (.array rs) = .ok risk.length)
      ∧ highRiskCount L ctx employees (.array []) = .ok 0
      ∧ highRiskCount L ctx employees .null
          = .ok ((filteredEmployees L ctx employees).filter
              (fun e => decide (5 < e.absence_spells))).length
      ∧ totalEmployees L noFilter exampleDirectory = 2
      ∧ avgSalary R L noFilter exampleDirectory = .finite 9
      ∧ highRiskCount L noFilter exampleDirectory .null = .ok 1
      ∧ retentionScore R L noFilter exampleDirectory .null = .ok 50 := by
  have hcount : highRiskCount L noFilter exampleDirectory .null = .ok 1 := by
    have hs : staticRiskCount L noFilter exampleDirectory = 1 := by
      simp only [staticRiskCount, filteredEmployees_noFilter, jsFilter_eq_filter]
      decide
    show Except.ok (staticRiskCount L noFilter exampleDirectory) = Except.ok 1
    rw [hs]
  have htotal : totalEmployees L noFilter exampleDirectory = 2 := by
    simp only [totalEmployees, filteredEmployees_noFilter]
    rfl
  refine ⟨fun rs => ⟨_, rfl, rfl⟩, rfl, ?_, htotal, ?_, hcount, ?_⟩
  · show Except.ok (staticRiskCount L ctx employees) = _
    simp only [staticRiskCount, jsFilter_eq_filter, gt_iff_lt]
  · have h9 : R.fl 9 = 9 := by simpa using R.fl_int 9 (by norm_num)
    simp only [avgSalary, salarySum_exampleDirectory, salaryDivisor, htotal, jsDivide]
    norm_num [h9]
  · simp only [retentionScore, hcount, htotal]
    show Except.ok (retentionOf R 2 1) = Except.ok 50
    rw [retentionOf_two_one]

theorem salarySum_exact_foldl (xs : List Employee) (acc : ℚ) :
    xs.foldl (fun sum e => exactRounding.fl (sum + e.salary_lpa)) acc
      = acc + (xs.map (fun e => e.salary_lpa)).sum := by
  induction xs generalizing acc with
  | nil => simp
  | cons x xs ih =>
    rw [List.foldl_cons, ih]
    simp only [exactRounding, List.map_cons, List.sum_cons]
    ring

theorem salaryDivisor_ne_zero (L : Lowering) (ctx : FilterContext) (employees : List Employee) :
    (salaryDivisor L ctx employees : ℚ) ≠ 0 := by
  unfold salaryDivisor
  split
  · norm_num
  · rename_i hne
    exact_mod_cast hne

theorem jsDivide_finite (R : Rounding) (x y : ℚ) (hy : y ≠ 0) :
    jsDivide R x y = .finite (R.fl (x / y)) := by
  simp only [jsDivide, hy, if_false]

/-- C7: `avgSalary` is the quotient of the reduced sum by `(totalEmployees || 1)`; that
divisor is never 0, so the quotient is always a finite number, never `NaN` or an
infinity, although `0 / 0` is `NaN`; it is the rounded reduced sum over `totalEmployees`
when that is positive and 0 when it is 0; in exact arithmetic the reduced sum is the sum
of `salary_lpa` over `filteredEmployees`. -/
theorem avgSalary_spec (R : Rounding) (L : Lowering) (ctx : FilterContext)
    (employees : List Employee) :
    avgSalary R L ctx employees
        = jsDivide R (salarySum R L ctx employees) (salaryDivisor L ctx employees : ℚ)
      ∧ (salaryDivisor L ctx employees : ℚ) ≠ 0
      ∧ jsDivide R 0 0 = .nan
      ∧ (∃ q : ℚ, avgSalary R L ctx employees = .finite q)
      ∧ (0 < totalEmployees L ctx employees →
          avgSalary R L ctx employees
            = .finite
                (R.fl (salarySum R L ctx employees / (totalEmployees L ctx employees : ℚ))))
      ∧ (totalEmployees L ctx employees = 0 → avgSalary R L ctx employees = .finite 0)
      ∧ salarySum exactRounding L ctx employees
          = ((filteredEmployees L ctx employees).map (fun e => e.salary_lpa)).sum
      ∧ (0 < totalEmployees L ctx employees →
          avgSalary exactRounding L ctx employees
            = .finite (((filteredEmployees L ctx employees).map (fun e => e.salary_lpa)).sum
                / (totalEmployees L ctx employees : ℚ))) := by
  have hsum : salarySum exactRounding L ctx employees
      = ((filteredEmployees L ctx employees).map (fun e => e.salary_lpa)).sum := by
    simp only [salarySum, jsReduce, salarySum_exact_foldl, zero_add]
  have hfin : ∀ R1 : Rounding, avgSalary R1 L ctx employees
      = .finite (R1.fl (salarySum R1 L ctx employees / (salaryDivisor L ctx employees : ℚ))) :=
    fun R1 => jsDivide_finite R1 _ _ (salaryDivisor_ne_zero L ctx employees)
  have hpos : 0 < totalEmployees L ctx employees →
      salaryDivisor L ctx employees = totalEmployees L ctx employees := by
    intro h
    have hne : totalEmployees L ctx employees ≠ 0 := Nat.pos_iff_ne_zero.1 h
    simp only [salaryDivisor, hne, if_false]
  refine ⟨rfl, salaryDivisor_ne_zero L ctx employees, ?_, ⟨_, hfin R⟩, ?_, ?_, hsum, ?_⟩
  · simp only [jsDivide, if_true]
  · intro h
    rw [hfin R, hpos h]
  · intro hzero
    have hnil : filteredEmployees L ctx employees = [] := by
      apply List.eq_nil_of_length_eq_zero
      exact hzero
    have h0 : R.fl 0 = 0 := by simpa using R.fl_int 0 (by norm_num)
    rw [hfin R]
    simp only [salarySum, hnil, jsReduce, List.foldl_nil, zero_div, h0]
  · intro h
    rw [hfin exactRounding, hpos h, hsum]
    rfl

/-- C7, at the two-employee directory with no filter: the average is the finite number
18 / 2. -/
theorem avgSalary_spec_witness :
    0 < totalEmployees asciiLowering noFilter exampleDirectory
      ∧ avgSalary exactRounding asciiLowering noFilter exampleDirectory
          = .finite (((filteredEmployees asciiLowering noFilter exampleDirectory).map
              (fun e => e.salary_lpa)).sum
            / (totalEmployees asciiLowering noFilter exampleDirectory : ℚ)) :=
  ⟨by decide,
    (avgSalary_spec exactRounding asciiLowering noFilter exampleDirectory).2.2.2.2.2.2.2
      (by decide)⟩

/-! ## Running and resetting a simulation -/

/-- C4: a response that is a result array becomes `simResults`, and `viewMode` becomes
`risk` when some record of the whole array has a positive score and `safe` otherwise,
whatever the filter; for the response `[A (80, Eng), B (0, Sales)]` under the department
filter `Sales` this gives `viewMode = risk`, an empty `riskList` and `safeList = [B]`. -/
theorem runSimulation_success (L : Lowering) (s : State) (status : ℕ) (rs : List SimResult) :
    (runSimulationSettle s (.json status (.array rs))).1.simResults = .array rs
      ∧ (runSimulationSettle s (.json status (.array rs))).1.viewMode
          = (if rs.any (fun r => decide (0 < r.risk_score)) then ViewMode.risk else ViewMode.safe)
      ∧ (runSimulationSettle s (.json status (.array rs))).2 = false
      ∧ (∀ dept query : String,
          (runSimulationSettle { s with selectedDept := dept, searchQuery := query }
              (.json status (.array rs))).1.viewMode
            = (runSimulationSettle s (.json status (.array rs))).1.viewMode)
      ∧ (runSimulationSettle { s with selectedDept := "Sales", searchQuery := "" }
            (.json status (.array exampleResults))).1.viewMode = ViewMode.risk
      ∧ riskList L
          (runSimulationSettle { s with selectedDept := "Sales", searchQuery := "" }
            (.json status (.array exampleResults))).1.ctx
          (runSimulationSettle { s with selectedDept := "Sales", searchQuery := "" }
            (.json status (.array exampleResults))).1.simResults = .ok []
      ∧ safeList L
          (runSimulationSettle { s with selectedDept := "Sales", searchQuery := "" }
            (.json status (.array exampleResults))).1.ctx
          (runSimulationSettle { s with selectedDept := "Sales", searchQuery := "" }
            (.json status (.array exampleResults))).1.simResults
          = .ok [⟨⟨"B", "Sales"⟩, 0⟩] := by
  have hmode : (runSimulationSettle s (.json status (.array rs))).1.viewMode
      = (if rs.any (fun r => decide (0 < r.risk_score)) then ViewMode.risk else ViewMode.safe) := by
    simp only [runSimulationSettle, runSimulationTry, jsSome_eq_any, gt_iff_lt]
  refine ⟨rfl, hmode, rfl, fun dept query => ?_, ?_, ?_, ?_⟩
  · simp only [runSimulationSettle, runSimulationTry]
  · simp only [runSimulationSettle, runSimulationTry, jsSome, exampleResults]
    decide
  · simp only [runSimulationSettle, runSimulationTry, State.ctx, riskList, jsFilter_eq_filter,
      exampleResults, requestMatches]
    simp
  · simp only [runSimulationSettle, runSimulationTry, State.ctx, safeList, jsFilter_eq_filter,
      exampleResults, requestMatches]
    simp [jsIncludes, L.toLowerCase_empty, includesChars_nil]

/-- C6: `resetSimulation` sets `simResults` to `null` and the tab to `dashboard` and leaves
every other cell as it was; afterwards `highRiskCount` is the number of filtered employees
whose `absence_spells` exceeds 5 and both cohorts are empty. -/
theorem resetSimulation_spec (L : Lowering) (s : State) :
    (resetSimulation s).simResults = .null
      ∧ (resetSimulation s).activeTab = .dashboard
      ∧ resetSimulation s = { s with simResults := .null, activeTab := .dashboard }
      ∧ (resetSimulation s).viewMode = s.viewMode
      ∧ (resetSimulation s).ctx = s.ctx
      ∧ (resetSimulation s).params = s.params
      ∧ (resetSimulation s).employees = s.employees
      ∧ (resetSimulation s).loading = s.loading
      ∧ (resetSimulation s).error = s.error
      ∧ (resetSimulation s).simLoading = s.simLoading
      ∧ highRiskCount L (resetSimulation s).ctx (resetSimulation s).employees
            (resetSimulation s).simResults
          = .ok ((filteredEmployees L s.ctx s.employees).filter
              (fun e => decide (5 < e.absence_spells))).length
      ∧ riskList L (resetSimulation s).ctx (resetSimulation s).simResults = .ok []
      ∧ safeList L (resetSimulation s).ctx (resetSimulation s).simResults = .ok [] := by
  refine ⟨rfl, rfl, rfl, rfl, rfl, rfl, rfl, rfl, rfl, rfl, ?_, rfl, rfl⟩
  show Except.ok (staticRiskCount L s.ctx s.employees) = _
  simp only [staticRiskCount, jsFilter_eq_filter, gt_iff_lt]

theorem runSimulation_rejection_keeps_results (s : State) (status : ℕ) :
    (runSimulationSettle s .networkError).1.simResults = s.simResults
      ∧ (runSimulationSettle s (.invalidJson status)).1.simResults = s.simResults
      ∧ (runSimulationSettle s .networkError).2 = true
      ∧ (runSimulationSettle s (.invalidJson status)).2 = true :=
  ⟨rfl, rfl, rfl, rfl⟩

/-- C2 (the code departs from it): with a result set on display, an HTTP 500 response
whose JSON body is an object is written to `simResults` before `data.some` throws, so the
alert is shown and the prior result set is gone; the next render throws.  An HTTP 500
response whose body is an array replaces the result set without an alert. -/
theorem runSimulation_failure_overwrites_results :
    showingResults.simResults = .array exampleResults
      ∧ (runSimulationSettle showingResults (.json 500 (.other true))).1.simResults
          = .other true
      ∧ (runSimulationSettle showingResults (.json 500 (.other true))).2 = true
      ∧ (runSimulationSettle showingResults (.json 500 (.other true))).1.viewMode
          = showingResults.viewMode
      ∧ riskList asciiLowering noFilter
          (runSimulationSettle showingResults (.json 500 (.other true))).1.simResults
          = .error .typeError
      ∧ (runSimulationSettle showingResults (.json 500 (.array []))).1.simResults = .array []
      ∧ (runSimulationSettle showingResults (.json 500 (.array []))).2 = false :=
  ⟨rfl, rfl, rfl, rfl, rfl, rfl, rfl⟩

/-! ## Step model: pending timers and requests in flight -/

theorem timerInv_clearTimeout (m : Machine) (id : ℕ) (h : TimerInv m) :
    TimerInv { m with timers := clearTimeout id m.timers } := by
  constructor
  · exact le_trans (List.length_filter_le _ _) h.1
  · intro t ht
    exact h.2 t (List.mem_of_mem_filter ht)

theorem timerInv_runEffect (m : Machine) (h : TimerInv m) : TimerInv (runEffect m) := by
  have hcleared : (match m.cleanup with
      | some id => clearTimeout id m.timers
      | none => m.timers) = [] := by
    cases hc : m.cleanup with
    | none =>
      cases ht : m.timers with
      | nil => rfl
      | cons t ts =>
        have := h.2 t (by rw [ht]; exact List.mem_cons_self _ _)
        rw [hc] at this
        exact absurd this (by simp)
    | some id =>
      simp only [clearTimeout]
      apply List.filter_eq_nil_iff.2
      intro t ht
      have := h.2 t ht
      rw [hc] at this
      simp only [Option.some.injEq] at this
      simp [this]
  constructor
  · simp only [runEffect, hcleared]
    simp
  · intro t ht
    simp only [runEffect, hcleared, List.nil_append, List.mem_singleton] at ht
    simp only [runEffect, ht]

theorem timerInv_ui (m : Machine) (s : State) (h : TimerInv m) :
    TimerInv { m with ui := s } := h

theorem timerInv_commit (m : Machine) (s : State) (h : TimerInv m) : TimerInv (commit m s) := by
  unfold commit
  split
  · exact h
  · exact timerInv_runEffect _ (timerInv_ui m s h)

theorem timerInv_invoke (m : Machine) (origin : Origin) (p : Params) (h : TimerInv m) :
    TimerInv (invoke m origin p) :=
  timerInv_commit m (runSimulationStart m.ui) h

theorem timerInv_mount : TimerInv Machine.mount :=
  timerInv_runEffect _ ⟨Nat.zero_le _, fun _ ht => absurd ht (List.not_mem_nil _)⟩

theorem timerInv_step (m m1 : Machine) (e : Event) (h : TimerInv m) (hstep : step m e = some m1) :
    TimerInv m1 := by
  cases e with
  | editParam which value =>
    simp only [step, Option.some.injEq] at hstep
    rw [← hstep]
    exact timerInv_commit _ _ h
  | selectTab tab =>
    simp only [step, Option.some.injEq] at hstep
    rw [← hstep]
    exact timerInv_commit _ _ h
  | advance ms =>
    simp only [step, Option.some.injEq] at hstep
    rw [← hstep]
    exact h
  | timerExpiry id =>
    simp only [step] at hstep
    split at hstep
    · exact absurd hstep (by simp)
    · split at hstep
      · simp only [Option.some.injEq] at hstep
        rw [← hstep]
        split
        · exact timerInv_invoke _ _ _ (timerInv_clearTimeout m id h)
        · exact timerInv_clearTimeout m id h
      · exact absurd hstep (by simp)
  | manualRun =>
    simp only [step, Option.some.injEq] at hstep
    rw [← hstep]
    exact timerInv_invoke _ _ _ h
  | response index x =>
    simp only [step] at hstep
    split at hstep
    · exact absurd hstep (by simp)
    · simp only [Option.some.injEq] at hstep
      rw [← hstep]
      exact timerInv_commit m (runSimulationSettle m.ui x).1 h
  | reset =>
    simp only [step, Option.some.injEq] at hstep
    rw [← hstep]
    exact timerInv_commit _ _ h
  | selectDept dept =>
    simp only [step, Option.some.injEq] at hstep
    rw [← hstep]
    exact timerInv_commit _ _ h
  | search query =>
    simp only [step, Option.some.injEq] at hstep
    rw [← hstep]
    exact timerInv_commit _ _ h
  | selectView view =>
    simp only [step, Option.some.injEq] at hstep
    rw [← hstep]
    exact timerInv_commit _ _ h
  | directory result =>
    simp only [step] at hstep
    split at hstep
    · split at hstep
      · simp only [Option.some.injEq] at hstep
        rw [← hstep]
        exact timerInv_commit m _ h
      · simp only [Option.some.injEq] at hstep
        rw [← hstep]
        exact timerInv_commit m _ h
    · exact absurd hstep (by simp)

theorem timerInv_run (es : List Event) (m m1 : Machine) (h : TimerInv m)
    (hrun : run m es = some m1) : TimerInv m1 := by
  induction es generalizing m with
  | nil =>
    simp only [run, Option.some.injEq] at hrun
    rw [← hrun]
    exact h
  | cons e es ih =>
    simp only [run] at hrun
    cases hs : step m e with
    | none => rw [hs] at hrun; exact absurd hrun (by simp)
    | some m2 =>
      rw [hs] at hrun
      exact ih m2 (timerInv_step m m2 e h hs) hrun

theorem run_of_runOffered (es : List Event) (m m1 : Machine)
    (h : runOffered m es = some m1) : run m es = some m1 := by
  induction es generalizing m with
  | nil => exact h
  | cons e es ih =>
    simp only [runOffered] at h
    split at h
    · cases hs : step m e with
      | none => rw [hs] at h; exact absurd h (by simp)
      | some m2 =>
        rw [hs] at h
        simp only [run, hs]
        exact ih m2 h
    · exact absurd h (by simp)

theorem pending_timer_unique (m : Machine) (h : Reachable m) : m.timers.length ≤ 1 := by
  obtain ⟨es, hes⟩ := h
  exact (timerInv_run es Machine.mount m timerInv_mount hes).1

theorem pending_timer_unique_example :
    Reachable Machine.mount ∧ Machine.mount.timers.length ≤ 1 :=
  ⟨⟨[], rfl⟩, pending_timer_unique Machine.mount ⟨[], rfl⟩⟩

/-- C10 (the code departs from it): along `overlapTrace`, every event of which the page
exposes, the component reaches a state with two requests in flight that were both started
by the debounce path, the first with the old and the second with the new slider value; no
timer is pending there. -/
theorem debounce_requests_overlap :
    (runOffered Machine.mount overlapTrace).map
        (fun m => (debounceInFlight m, m.timers.length))
      = some ([⟨.debounce, ⟨400, 4 / 5, 60, 60⟩⟩, ⟨.debounce, ⟨450, 4 / 5, 60, 60⟩⟩], 0) := by
  with_unfolding_all rfl

/-! ## Scores outside the documented range -/

theorem cohort_lengths (L : Lowering) (ctx : FilterContext) (rs : List SimResult) :
    (rs.filter (fun r => decide (r.risk_score > 0) && requestMatches L ctx r.toIdentity)).length
        + (rs.filter
            (fun r => decide (r.risk_score = 0) && requestMatches L ctx r.toIdentity)).length
        + (rs.filter
            (fun r => decide (r.risk_score < 0) && requestMatches L ctx r.toIdentity)).length
      = (rs.filter (fun r => requestMatches L ctx r.toIdentity)).length := by
  induction rs with
  | nil => rfl
  | cons r rs ih =>
    simp only [gt_iff_lt] at ih ⊢
    by_cases hm : requestMatches L ctx r.toIdentity = true
    · rcases lt_trichotomy r.risk_score 0 with hneg | hzero | hpos
      · have h1 : ¬ r.risk_score > 0 := by omega
        have h2 : ¬ r.risk_score = 0 := by omega
        simp [List.filter_cons, hm, hneg, h1, h2]
        omega
      · have h1 : ¬ r.risk_score > 0 := by omega
        have h2 : ¬ r.risk_score < 0 := by omega
        simp [List.filter_cons, hm, hzero]
        omega
      · have h1 : ¬ r.risk_score = 0 := by omega
        have h2 : ¬ r.risk_score < 0 := by omega
        have h3 : r.risk_score > 0 := hpos
        simp [List.filter_cons, hm, h3, h1, h2]
        omega
    · simp only [List.filter_cons, hm, Bool.and_false, Bool.false_eq_true, if_false]
      exact ih

/-- C14: a record with a negative score is in neither `riskList` nor `safeList`, whether or
not it satisfies `requestMatches`; the two lengths never exceed the number of matching
records and fall short of it as soon as one matching record has a negative score, as for
the single record `A` with score -5 and no filter. -/
theorem negative_score_in_neither_cohort (L : Lowering) (ctx : FilterContext)
    (rs : List SimResult) :
    (∃ risk safe : List SimResult,
        riskList L ctx (.array rs) = .ok risk ∧ safeList L ctx (.array rs) = .ok safe
          ∧ (∀ r : SimResult, r.risk_score < 0 → r ∉ risk ∧ r ∉ safe)
          ∧ risk.length + safe.length
              ≤ (rs.filter (fun r => requestMatches L ctx r.toIdentity)).length
          ∧ ((∃ r ∈ rs, r.risk_score < 0 ∧ requestMatches L ctx r.toIdentity = true) →
              risk.length + safe.length
                < (rs.filter (fun r => requestMatches L ctx r.toIdentity)).length))
      ∧ riskList L noFilter (.array [⟨⟨"A", "Eng"⟩, -5⟩]) = .ok []
      ∧ safeList L noFilter (.array [⟨⟨"A", "Eng"⟩, -5⟩]) = .ok []
      ∧ (List.filter (fun r : SimResult => requestMatches L noFilter r.toIdentity)
          [⟨⟨"A", "Eng"⟩, -5⟩]).length = 1 := by
  refine ⟨⟨_, _, rfl, rfl, ?_, ?_, ?_⟩, ?_, ?_, ?_⟩
  · intro r hneg
    simp only [jsFilter_eq_filter, List.mem_filter, Bool.and_eq_true, decide_eq_true_eq]
    constructor
    · intro h
      omega
    · intro h
      omega
  · have hlen := cohort_lengths L ctx rs
    simp only [jsFilter_eq_filter]
    omega
  · rintro ⟨r, hr, hneg, hm⟩
    have hlen := cohort_lengths L ctx rs
    have hmem : r ∈ rs.filter
        (fun r => decide (r.risk_score < 0) && requestMatches L ctx r.toIdentity) := by
      simp only [List.mem_filter, Bool.and_eq_true, decide_eq_true_eq]
      exact ⟨hr, hneg, hm⟩
    have hpos := List.length_pos_of_mem hmem
    simp only [jsFilter_eq_filter]
    omega
  · simp [riskList, jsFilter_eq_filter]
  · simp [safeList, jsFilter_eq_filter]
  · simp [requestMatches_noFilter]

/-- C14, at a response with one matching record of score -5 and one of score 80: the
cohorts hold one record, the filter matches two. -/
theorem negative_score_in_neither_cohort_witness :
    (∃ r ∈ ([⟨⟨"A", "Eng"⟩, -5⟩, ⟨⟨"C", "Eng"⟩, 80⟩] : List SimResult),
        r.risk_score < 0 ∧ requestMatches asciiLowering noFilter r.toIdentity = true)
      ∧ ∃ risk safe : List SimResult,
          riskList asciiLowering noFilter (.array [⟨⟨"A", "Eng"⟩, -5⟩, ⟨⟨"C", "Eng"⟩, 80⟩])
              = .ok risk
            ∧ safeList asciiLowering noFilter
                (.array [⟨⟨"A", "Eng"⟩, -5⟩, ⟨⟨"C", "Eng"⟩, 80⟩]) = .ok safe
            ∧ risk.length + safe.length
                < (List.filter
                    (fun r : SimResult => requestMatches asciiLowering noFilter r.toIdentity)
                    [⟨⟨"A", "Eng"⟩, -5⟩, ⟨⟨"C", "Eng"⟩, 80⟩]).length := by
  have hex : ∃ r ∈ ([⟨⟨"A", "Eng"⟩, -5⟩, ⟨⟨"C", "Eng"⟩, 80⟩] : List SimResult),
      r.risk_score < 0 ∧ requestMatches asciiLowering noFilter r.toIdentity = true :=
    ⟨⟨⟨"A", "Eng"⟩, -5⟩, by decide, by decide, by decide⟩
  obtain ⟨⟨risk, safe, hr, hs, _, _, hlt⟩, _⟩ :=
    negative_score_in_neither_cohort asciiLowering noFilter
      [⟨⟨"A", "Eng"⟩, -5⟩, ⟨⟨"C", "Eng"⟩, 80⟩]
  exact ⟨hex, risk, safe, hr, hs, hlt hex⟩

/-! ## The loading flag -/

theorem runEffect_ui (m : Machine) : (runEffect m).ui = m.ui := rfl

theorem runEffect_inflight (m : Machine) : (runEffect m).inflight = m.inflight := rfl

theorem commit_ui (m : Machine) (s : State) : (commit m s).ui = s := by
  unfold commit
  split <;> rfl

theorem commit_inflight (m : Machine) (s : State) : (commit m s).inflight = m.inflight := by
  unfold commit
  split <;> rfl

theorem commit_of_deps_eq (m : Machine) (s : State) (h : deps s = deps m.ui) :
    commit m s = { m with ui := s } := by
  unfold commit
  rw [if_pos h]

theorem settle_simLoading (s : State) (x : Exchange) :
    (runSimulationSettle s x).1.simLoading = false := by
  cases x with
  | networkError => rfl
  | invalidJson status => rfl
  | json status data =>
    cases data with
    | null => rfl
    | array rs => rfl
    | other t => rfl

theorem settle_deps (s : State) (x : Exchange) : deps (runSimulationSettle s x).1 = deps s := by
  cases x with
  | networkError => rfl
  | invalidJson status => rfl
  | json status data =>
    cases data with
    | null => rfl
    | array rs => rfl
    | other t => rfl

/-- C13: `runSimulation` sets the tab to `simulation` and `simLoading` to true before it
issues the request, and whatever the exchange ends in (a result array, a rejected
`fetch`, a body that does not parse, a payload on which `data.some` throws) `simLoading`
is false once the call has settled; the same holds for the calls and responses of the
step model. -/
theorem runSimulation_loading_flag (s : State) (x : Exchange) (m : Machine) (origin : Origin)
    (p : Params) :
    (runSimulationStart s).activeTab = .simulation
      ∧ (runSimulationStart s).simLoading = true
      ∧ (runSimulationSettle s x).1.simLoading = false
      ∧ (runSimulationSettle (runSimulationStart s) x).1.simLoading = false
      ∧ (invoke m origin p).ui.activeTab = .simulation
      ∧ (invoke m origin p).ui.simLoading = true
      ∧ (invoke m origin p).inflight = m.inflight ++ [⟨origin, requestBody p⟩]
      ∧ ∀ (index : ℕ) (m1 : Machine),
          step m (.response index x) = some m1 → m1.ui.simLoading = false := by
  have hui : (invoke m origin p).ui = runSimulationStart m.ui := by
    show (commit m (runSimulationStart m.ui)).ui = _
    rw [commit_ui]
  refine ⟨rfl, rfl, settle_simLoading s x, settle_simLoading _ x, ?_, ?_, ?_, ?_⟩
  · rw [hui]
    rfl
  · rw [hui]
    rfl
  · show (commit m (runSimulationStart m.ui)).inflight ++ _ = _
    rw [commit_inflight]
  · intro index m1 hstep
    simp only [step] at hstep
    split at hstep
    · exact absurd hstep (by simp)
    · simp only [Option.some.injEq] at hstep
      rw [← hstep]
      show (commit m (runSimulationSettle m.ui x).1).ui.simLoading = false
      rw [commit_ui]
      exact settle_simLoading _ x

/-- C13, for a machine with one request in flight whose response is an HTTP 500 with an
object body: the step exists and clears `simLoading`. -/
theorem runSimulation_loading_flag_witness :
    step (invoke Machine.mount .manual State.initial.params) (.response 0 (.json 500 (.other true)))
        = some ((step (invoke Machine.mount .manual State.initial.params)
            (.response 0 (.json 500 (.other true)))).getD Machine.mount)
      ∧ ((step (invoke Machine.mount .manual State.initial.params)
            (.response 0 (.json 500 (.other true)))).getD Machine.mount).ui.simLoading = false :=
  ⟨by with_unfolding_all rfl,
    (runSimulation_loading_flag State.initial (.json 500 (.other true))
      (invoke Machine.mount .manual State.initial.params) .manual State.initial.params).2.2.2.2.2.2.2
      0 _ (by with_unfolding_all rfl)⟩

/-! ## What a pending timer holds -/

theorem runEffect_timers (m : Machine) (h : TimerInv m) :
    (runEffect m).timers = [⟨m.nextTimerId, m.now + debounceMs, m.ui.activeTab, m.ui.params⟩] := by
  have hcleared : (match m.cleanup with
      | some id => clearTimeout id m.timers
      | none => m.timers) = [] := by
    cases hc : m.cleanup with
    | none =>
      cases ht : m.timers with
      | nil => rfl
      | cons t ts =>
        have hmem := h.2 t (by rw [ht]; exact List.mem_cons_self _ _)
        rw [hc] at hmem
        exact absurd hmem (by simp)
    | some id =>
      simp only [clearTimeout]
      apply List.filter_eq_nil_iff.2
      intro t ht
      have hmem := h.2 t ht
      rw [hc] at hmem
      simp only [Option.some.injEq] at hmem
      simp [hmem]
  simp only [runEffect, hcleared, List.nil_append]

theorem runEffect_mem (m : Machine) (t : Timer) (ht : t ∈ (runEffect m).timers) :
    t ∈ m.timers
      ∨ t = ⟨m.nextTimerId, m.now + debounceMs, m.ui.activeTab, m.ui.params⟩ := by
  simp only [runEffect, List.mem_append, List.mem_singleton] at ht
  rcases ht with hold | hnew
  · left
    cases hc : m.cleanup with
    | none =>
      rw [hc] at hold
      exact hold
    | some id =>
      rw [hc] at hold
      exact List.mem_of_mem_filter hold
  · right
    exact hnew

theorem timerSync_commit (m : Machine) (s : State) (hinv : TimerInv m) (hsync : TimerSync m) :
    TimerSync (commit m s) := by
  unfold commit
  split
  · rename_i hdeps
    intro t ht
    have hold := hsync t ht
    have hp : s.params = m.ui.params := congrArg Prod.fst hdeps
    have ha : s.activeTab = m.ui.activeTab := congrArg Prod.snd hdeps
    exact ⟨hold.1.trans ha.symm, hold.2.trans hp.symm⟩
  · intro t ht
    rw [runEffect_timers _ (timerInv_ui m s hinv)] at ht
    simp only [List.mem_singleton] at ht
    rw [ht]
    exact ⟨rfl, rfl⟩

theorem timerSync_clearTimeout (m : Machine) (id : ℕ) (hsync : TimerSync m) :
    TimerSync { m with timers := clearTimeout id m.timers } := by
  intro t ht
  exact hsync t (List.mem_of_mem_filter ht)

theorem timerSync_invoke (m : Machine) (origin : Origin) (p : Params) (hinv : TimerInv m)
    (hsync : TimerSync m) : TimerSync (invoke m origin p) :=
  timerSync_commit m (runSimulationStart m.ui) hinv hsync

theorem timerSync_step (m m1 : Machine) (e : Event) (hinv : TimerInv m) (hsync : TimerSync m)
    (hstep : step m e = some m1) : TimerSync m1 := by
  cases e with
  | editParam which value =>
    simp only [step, Option.some.injEq] at hstep
    rw [← hstep]
    exact timerSync_commit _ _ hinv hsync
  | selectTab tab =>
    simp only [step, Option.some.injEq] at hstep
    rw [← hstep]
    exact timerSync_commit _ _ hinv hsync
  | advance ms =>
    simp only [step, Option.some.injEq] at hstep
    rw [← hstep]
    exact hsync
  | timerExpiry id =>
    simp only [step] at hstep
    split at hstep
    · exact absurd hstep (by simp)
    · split at hstep
      · simp only [Option.some.injEq] at hstep
        rw [← hstep]
        split
        · exact timerSync_invoke _ _ _ (timerInv_clearTimeout m id hinv)
            (timerSync_clearTimeout m id hsync)
        · exact timerSync_clearTimeout m id hsync
      · exact absurd hstep (by simp)
  | manualRun =>
    simp only [step, Option.some.injEq] at hstep
    rw [← hstep]
    exact timerSync_invoke _ _ _ hinv hsync
  | response index x =>
    simp only [step] at hstep
    split at hstep
    · exact absurd hstep (by simp)
    · simp only [Option.some.injEq] at hstep
      rw [← hstep]
      exact timerSync_commit m (runSimulationSettle m.ui x).1 hinv hsync
  | reset =>
    simp only [step, Option.some.injEq] at hstep
    rw [← hstep]
    exact timerSync_commit _ _ hinv hsync
  | selectDept dept =>
    simp only [step, Option.some.injEq] at hstep
    rw [← hstep]
    exact timerSync_commit _ _ hinv hsync
  | search query =>
    simp only [step, Option.some.injEq] at hstep
    rw [← hstep]
    exact timerSync_commit _ _ hinv hsync
  | selectView view =>
    simp only [step, Option.some.injEq] at hstep
    rw [← hstep]
    exact timerSync_commit _ _ hinv hsync
  | directory result =>
    simp only [step] at hstep
    split at hstep
    · split at hstep
      · simp only [Option.some.injEq] at hstep
        rw [← hstep]
        exact timerSync_commit m _ hinv hsync
      · simp only [Option.some.injEq] at hstep
        rw [← hstep]
        exact timerSync_commit m _ hinv hsync
    · exact absurd hstep (by simp)

theorem timerSync_run (es : List Event) (m m1 : Machine) (hinv : TimerInv m)
    (hsync : TimerSync m) (hrun : run m es = some m1) : TimerSync m1 := by
  induction es generalizing m with
  | nil =>
    simp only [run, Option.some.injEq] at hrun
    rw [← hrun]
    exact hsync
  | cons e es ih =>
    simp only [run] at hrun
    cases hs : step m e with
    | none => rw [hs] at hrun; exact absurd hrun (by simp)
    | some m2 =>
      rw [hs] at hrun
      exact ih m2 (timerInv_step m m2 e hinv hs) (timerSync_step m m2 e hinv hsync hs) hrun

theorem timerSync_mount : TimerSync Machine.mount := by
  intro t ht
  have hmem := runEffect_mem _ t ht
  rcases hmem with hold | hnew
  · exact absurd hold (List.not_mem_nil _)
  · rw [hnew]
    exact ⟨rfl, rfl⟩

theorem reachable_timers (m : Machine) (h : Reachable m) : TimerInv m ∧ TimerSync m := by
  obtain ⟨es, hes⟩ := h
  exact ⟨timerInv_run es Machine.mount m timerInv_mount hes,
    timerSync_run es Machine.mount m timerInv_mount timerSync_mount hes⟩

/-! ## Edits on the overview tab -/

theorem setParam_activeTab (s : State) (which : ParamName) (value : ℚ) :
    (setParam s which value).activeTab = s.activeTab := by
  cases which <;> rfl

theorem commit_timers_tab (m : Machine) (s : State) (tab : Tab)
    (htimers : ∀ t ∈ m.timers, t.activeTab = tab) (hs : s.activeTab = tab) :
    ∀ t ∈ (commit m s).timers, t.activeTab = tab := by
  unfold commit
  split
  · exact htimers
  · intro t ht
    rcases runEffect_mem _ t ht with hold | hnew
    · exact htimers t hold
    · rw [hnew]
      exact hs

theorem debounceInFlight_eraseIdx (m : Machine) (index : ℕ) :
    (List.filter (fun r : Request => decide (r.origin = .debounce))
        (m.inflight.eraseIdx index)).length ≤ (debounceInFlight m).length :=
  ((List.eraseIdx_sublist m.inflight index).filter _).length_le

theorem expiry_of_other_tab (m : Machine) (id : ℕ) (t : Timer)
    (hfind : m.timers.find? (fun t => t.id == id) = some t) (htab : t.activeTab ≠ .simulation) :
    started m (.timerExpiry id) = none
      ∧ ∀ m1 : Machine, step m (.timerExpiry id) = some m1 →
          m1.inflight = m.inflight ∧ m1.ui = m.ui ∧ m1.timers = clearTimeout id m.timers := by
  constructor
  · simp only [started, hfind, htab, and_false, if_false]
  · intro m1 hstep
    simp only [step, hfind, htab, if_false] at hstep
    split at hstep
    · simp only [Option.some.injEq] at hstep
      rw [← hstep]
      exact ⟨rfl, rfl, rfl⟩
    · exact absurd hstep (by simp)

theorem overview_step (m m1 : Machine) (e : Event) (htab : m.ui.activeTab = .dashboard)
    (htimers : ∀ t ∈ m.timers, t.activeTab = .dashboard) (he : staysOnOverview e = true)
    (hstep : step m e = some m1) :
    m1.ui.activeTab = .dashboard ∧ (∀ t ∈ m1.timers, t.activeTab = .dashboard)
      ∧ started m e = none
      ∧ (debounceInFlight m1).length ≤ (debounceInFlight m).length := by
  cases e with
  | editParam which value =>
    simp only [step, Option.some.injEq] at hstep
    subst hstep
    have hs : (setParam m.ui which value).activeTab = .dashboard := by
      rw [setParam_activeTab]
      exact htab
    refine ⟨?_, commit_timers_tab m _ .dashboard htimers hs, rfl, ?_⟩
    · rw [commit_ui]
      exact hs
    · simp only [debounceInFlight, commit_inflight]
      exact le_refl _
  | selectTab tab =>
    cases tab with
    | simulation => exact absurd he (by simp [staysOnOverview])
    | dashboard =>
      simp only [step, Option.some.injEq] at hstep
      subst hstep
      refine ⟨?_, commit_timers_tab m _ .dashboard htimers rfl, rfl, ?_⟩
      · rw [commit_ui]
      · simp only [debounceInFlight, commit_inflight]
        exact le_refl _
  | advance ms =>
    simp only [step, Option.some.injEq] at hstep
    subst hstep
    exact ⟨htab, htimers, rfl, le_refl _⟩
  | timerExpiry id =>
    cases hfind : m.timers.find? (fun t => t.id == id) with
    | none =>
      simp only [step, hfind] at hstep
      exact absurd hstep (by simp)
    | some t =>
      have hmem : t ∈ m.timers := List.mem_of_find?_eq_some hfind
      have hother : t.activeTab ≠ .simulation := by
        rw [htimers t hmem]
        decide
      obtain ⟨hnone, hrest⟩ := expiry_of_other_tab m id t hfind hother
      obtain ⟨hin, hui, htm⟩ := hrest m1 hstep
      refine ⟨?_, ?_, hnone, ?_⟩
      · rw [hui]
        exact htab
      · intro t1 ht1
        rw [htm] at ht1
        exact htimers t1 (List.mem_of_mem_filter ht1)
      · simp only [debounceInFlight, hin]
        exact le_refl _
  | manualRun => exact absurd he (by simp [staysOnOverview])
  | response index x =>
    simp only [step] at hstep
    split at hstep
    · exact absurd hstep (by simp)
    · simp only [Option.some.injEq] at hstep
      subst hstep
      have hs : (runSimulationSettle m.ui x).1.activeTab = .dashboard := by
        have hd := congrArg Prod.snd (settle_deps m.ui x)
        exact hd.trans htab
      refine ⟨?_, commit_timers_tab m _ .dashboard htimers hs, rfl, ?_⟩
      · show (commit m (runSimulationSettle m.ui x).1).ui.activeTab = .dashboard
        rw [commit_ui]
        exact hs
      · show (List.filter (fun r : Request => decide (r.origin = .debounce))
            ((commit m (runSimulationSettle m.ui x).1).inflight.eraseIdx index)).length ≤ _
        rw [commit_inflight]
        exact debounceInFlight_eraseIdx m index
  | reset =>
    simp only [step, Option.some.injEq] at hstep
    subst hstep
    refine ⟨?_, commit_timers_tab m _ .dashboard htimers rfl, rfl, ?_⟩
    · rw [commit_ui]
      rfl
    · simp only [debounceInFlight, commit_inflight]
      exact le_refl _
  | selectDept dept =>
    simp only [step, Option.some.injEq] at hstep
    subst hstep
    refine ⟨?_, commit_timers_tab m _ .dashboard htimers htab, rfl, ?_⟩
    · rw [commit_ui]
      exact htab
    · simp only [debounceInFlight, commit_inflight]
      exact le_refl _
  | search query =>
    simp only [step, Option.some.injEq] at hstep
    subst hstep
    refine ⟨?_, commit_timers_tab m _ .dashboard htimers htab, rfl, ?_⟩
    · rw [commit_ui]
      exact htab
    · simp only [debounceInFlight, commit_inflight]
      exact le_refl _
  | selectView view =>
    simp only [step, Option.some.injEq] at hstep
    subst hstep
    refine ⟨?_, commit_timers_tab m _ .dashboard htimers htab, rfl, ?_⟩
    · rw [commit_ui]
      exact htab
    · simp only [debounceInFlight, commit_inflight]
      exact le_refl _
  | directory result =>
    simp only [step] at hstep
    split at hstep
    · split at hstep
      · simp only [Option.some.injEq] at hstep
        subst hstep
        rename_i data
        refine ⟨?_, commit_timers_tab m { m.ui with employees := data, loading := false }
          .dashboard htimers htab, rfl, ?_⟩
        · show (commit m { m.ui with employees := data, loading := false }).ui.activeTab
            = .dashboard
          rw [commit_ui]
          exact htab
        · show (List.filter (fun r : Request => decide (r.origin = .debounce))
              (commit m { m.ui with employees := data, loading := false }).inflight).length ≤ _
          rw [commit_inflight]
          exact le_refl _
      · simp only [Option.some.injEq] at hstep
        subst hstep
        refine ⟨?_, commit_timers_tab m _ .dashboard htimers htab, rfl, ?_⟩
        · show (commit m _).ui.activeTab = .dashboard
          rw [commit_ui]
          exact htab
        · show (List.filter (fun r : Request => decide (r.origin = .debounce))
              (commit m _).inflight).length ≤ _
          rw [commit_inflight]
          exact le_refl _
    · exact absurd hstep (by simp)

theorem overview_run (es : List Event) (m : Machine) (htab : m.ui.activeTab = .dashboard)
    (htimers : ∀ t ∈ m.timers, t.activeTab = .dashboard)
    (hes : ∀ e ∈ es, staysOnOverview e = true) :
    debounceCalls m es = []
      ∧ ∀ m1 : Machine, run m es = some m1 →
          m1.ui.activeTab = .dashboard
            ∧ (debounceInFlight m1).length ≤ (debounceInFlight m).length := by
  induction es generalizing m with
  | nil =>
    refine ⟨rfl, ?_⟩
    intro m1 hrun
    simp only [run, Option.some.injEq] at hrun
    rw [← hrun]
    exact ⟨htab, le_refl _⟩
  | cons e es ih =>
    have he := hes e (List.mem_cons_self _ _)
    have hrest : ∀ e1 ∈ es, staysOnOverview e1 = true :=
      fun e1 h1 => hes e1 (List.mem_cons_of_mem _ h1)
    cases hs : step m e with
    | none =>
      refine ⟨by simp only [debounceCalls, hs], ?_⟩
      intro m1 hrun
      simp only [run, hs] at hrun
      exact absurd hrun (by simp)
    | some m2 =>
      obtain ⟨htab2, htimers2, hnone, hle⟩ := overview_step m m2 e htab htimers he hs
      obtain ⟨hcalls, hfinal⟩ := ih m2 htab2 htimers2 hrest
      refine ⟨by simp only [debounceCalls, hs, hnone, hcalls, Option.toList, List.append_nil], ?_⟩
      intro m1 hrun
      simp only [run, hs] at hrun
      obtain ⟨h1, h2⟩ := hfinal m1 hrun
      exact ⟨h1, le_trans h2 hle⟩

theorem step_started (m m1 : Machine) (id : ℕ) (hstep : step m (.timerExpiry id) = some m1) :
    m1.inflight = m.inflight ++ (started m (.timerExpiry id)).toList := by
  cases hfind : m.timers.find? (fun t => t.id == id) with
  | none =>
    simp only [step, hfind] at hstep
    exact absurd hstep (by simp)
  | some t =>
    simp only [step, hfind] at hstep
    split at hstep
    · rename_i hdead
      simp only [Option.some.injEq] at hstep
      by_cases htab : t.activeTab = .simulation
      · simp only [htab, if_true] at hstep
        subst hstep
        simp only [started, hfind, hdead, htab, and_self, if_true, Option.toList]
        show (commit _ _).inflight ++ _ = _
        rw [commit_inflight]
      · simp only [htab, if_false] at hstep
        subst hstep
        simp only [started, hfind, htab, and_false, if_false, Option.toList, List.append_nil]
    · exact absurd hstep (by simp)

/-- C11: from a reachable state with the overview tab active, along every sequence of
events that keeps it active (parameter edits, time passing, timer expiries, responses,
filter changes), no timer callback calls `runSimulation`, the tab stays `dashboard` and
no debounce request is added; in any state, the expiry of a timer whose closure holds a
tab other than `simulation` starts nothing, and a timer holds the tab of the render that
armed it. -/
theorem overview_edits_start_nothing (m : Machine) (hm : Reachable m)
    (htab : m.ui.activeTab = .dashboard) (es : List Event)
    (hes : ∀ e ∈ es, staysOnOverview e = true) :
    debounceCalls m es = []
      ∧ (∀ m1 : Machine, run m es = some m1 →
          m1.ui.activeTab = .dashboard
            ∧ (debounceInFlight m1).length ≤ (debounceInFlight m).length)
      ∧ (∀ (m2 : Machine) (id : ℕ) (t : Timer),
          m2.timers.find? (fun t => t.id == id) = some t → t.activeTab ≠ .simulation →
          started m2 (.timerExpiry id) = none
            ∧ ∀ m3 : Machine, step m2 (.timerExpiry id) = some m3 →
                m3.inflight = m2.inflight ∧ m3.ui = m2.ui)
      ∧ (∀ (m2 : Machine) (t : Timer), t ∈ (runEffect m2).timers →
          t ∈ m2.timers ∨ t.activeTab = m2.ui.activeTab)
      ∧ (∀ (m2 m3 : Machine) (id : ℕ), step m2 (.timerExpiry id) = some m3 →
          m3.inflight = m2.inflight ++ (started m2 (.timerExpiry id)).toList) := by
  have hsync := (reachable_timers m hm).2
  have htimers : ∀ t ∈ m.timers, t.activeTab = .dashboard :=
    fun t ht => (hsync t ht).1.trans htab
  obtain ⟨hcalls, hfinal⟩ := overview_run es m htab htimers hes
  refine ⟨hcalls, hfinal, ?_, ?_, ?_⟩
  · intro m2 id t hfind hother
    obtain ⟨hnone, hrest⟩ := expiry_of_other_tab m2 id t hfind hother
    exact ⟨hnone, fun m3 h3 => ⟨(hrest m3 h3).1, (hrest m3 h3).2.1⟩⟩
  · intro m2 t ht
    rcases runEffect_mem m2 t ht with hold | hnew
    · exact Or.inl hold
    · right
      rw [hnew]
  · intro m2 m3 id h3
    exact step_started m2 m3 id h3

/-- C11, for two slider edits made right after mounting, each followed by the expiry of
its timer: both timers fire and neither starts a request. -/
theorem overview_edits_start_nothing_witness :
    Reachable Machine.mount ∧ Machine.mount.ui.activeTab = .dashboard
      ∧ (∀ e ∈ overviewTrace, staysOnOverview e = true)
      ∧ (run Machine.mount overviewTrace).map (fun m => (m.inflight, m.timers)) = some ([], [])
      ∧ debounceCalls Machine.mount overviewTrace = [] :=
  ⟨⟨[], rfl⟩, rfl, by decide, by with_unfolding_all rfl,
    (overview_edits_start_nothing Machine.mount ⟨[], rfl⟩ rfl overviewTrace (by decide)).1⟩

/-! ## Bursts of edits on the simulation tab -/

theorem setParam_params (s : State) (which : ParamName) (value : ℚ) :
    (setParam s which value).params = s.params.set which value := by
  cases which <;> rfl

theorem deps_start (s : State) (h : s.activeTab = .simulation) :
    deps (runSimulationStart s) = deps s := by
  simp only [deps, runSimulationStart, State.params, h]

theorem commit_quiet (m : Machine) (s : State) (hd : deps s = deps m.ui) :
    (commit m s).ui = s ∧ (commit m s).timers = m.timers ∧ (commit m s).now = m.now := by
  rw [commit_of_deps_eq m s hd]
  exact ⟨rfl, rfl, rfl⟩

theorem elapsed_cons (e : Event) (es : List Event) :
    elapsed (e :: es) = elapsed [e] + elapsed es := by
  cases e <;> simp [elapsed]

theorem run_append (a b : List Event) (m : Machine) :
    run m (a ++ b) = (match run m a with
      | some m1 => run m1 b
      | none => none) := by
  induction a generalizing m with
  | nil => rfl
  | cons e a ih =>
    cases hs : step m e with
    | none => simp only [List.cons_append, run, hs]
    | some m1 =>
      show run m (e :: (a ++ b)) = _
      simp only [run, hs]
      exact ih m1

theorem debounceCalls_append (a b : List Event) (m : Machine) :
    debounceCalls m (a ++ b) = debounceCalls m a ++ (match run m a with
      | some m1 => debounceCalls m1 b
      | none => []) := by
  induction a generalizing m with
  | nil => simp [run, debounceCalls]
  | cons e a ih =>
    cases hs : step m e with
    | none => simp only [List.cons_append, run, debounceCalls, hs, List.append_nil]
    | some m1 =>
      show debounceCalls m (e :: (a ++ b)) = _
      simp only [run, debounceCalls, hs, List.append_assoc]
      rw [ih m1]

theorem quiet_step (m m1 : Machine) (e : Event) (htab : m.ui.activeTab = .simulation)
    (hq : quiet e = true) (hne : ∀ id : ℕ, e ≠ .timerExpiry id) (hstep : step m e = some m1) :
    deps m1.ui = deps m.ui ∧ m1.timers = m.timers ∧ m1.now = m.now + elapsed [e]
      ∧ started m e = none := by
  cases e with
  | editParam which value => exact absurd hq (by simp [quiet])
  | selectTab tab => exact absurd hq (by simp [quiet])
  | reset => exact absurd hq (by simp [quiet])
  | timerExpiry id => exact absurd rfl (hne id)
  | advance ms =>
    simp only [step, Option.some.injEq] at hstep
    subst hstep
    exact ⟨rfl, rfl, by simp [elapsed], rfl⟩
  | manualRun =>
    simp only [step, Option.some.injEq] at hstep
    subst hstep
    obtain ⟨hui, htm, hnow⟩ := commit_quiet m (runSimulationStart m.ui) (deps_start m.ui htab)
    refine ⟨?_, htm, hnow, rfl⟩
    show deps (commit m (runSimulationStart m.ui)).ui = _
    rw [hui]
    exact deps_start m.ui htab
  | response index x =>
    simp only [step] at hstep
    split at hstep
    · exact absurd hstep (by simp)
    · simp only [Option.some.injEq] at hstep
      subst hstep
      obtain ⟨hui, htm, hnow⟩ :=
        commit_quiet m (runSimulationSettle m.ui x).1 (settle_deps m.ui x)
      refine ⟨?_, htm, hnow, rfl⟩
      show deps (commit m (runSimulationSettle m.ui x).1).ui = _
      rw [hui]
      exact settle_deps m.ui x
  | selectDept dept =>
    simp only [step, Option.some.injEq] at hstep
    subst hstep
    obtain ⟨hui, htm, hnow⟩ := commit_quiet m { m.ui with selectedDept := dept } rfl
    refine ⟨?_, htm, hnow, rfl⟩
    rw [hui]
    rfl
  | search query =>
    simp only [step, Option.some.injEq] at hstep
    subst hstep
    obtain ⟨hui, htm, hnow⟩ := commit_quiet m { m.ui with searchQuery := query } rfl
    refine ⟨?_, htm, hnow, rfl⟩
    rw [hui]
    rfl
  | selectView view =>
    simp only [step, Option.some.injEq] at hstep
    subst hstep
    obtain ⟨hui, htm, hnow⟩ := commit_quiet m { m.ui with viewMode := view } rfl
    refine ⟨?_, htm, hnow, rfl⟩
    rw [hui]
    rfl
  | directory result =>
    simp only [step] at hstep
    split at hstep
    · split at hstep
      · simp only [Option.some.injEq] at hstep
        subst hstep
        rename_i data
        obtain ⟨hui, htm, hnow⟩ :=
          commit_quiet m { m.ui with employees := data, loading := false } rfl
        refine ⟨?_, htm, hnow, rfl⟩
        show deps (commit m { m.ui with employees := data, loading := false }).ui = _
        rw [hui]
        rfl
      · simp only [Option.some.injEq] at hstep
        subst hstep
        obtain ⟨hui, htm, hnow⟩ := commit_quiet m
          { m.ui with
            error := some "Error: Is your Python Server running? (Run 'run_backend.bat'!)"
            loading := false } rfl
        refine ⟨?_, htm, hnow, rfl⟩
        show deps (commit m
          { m.ui with
            error := some "Error: Is your Python Server running? (Run 'run_backend.bat'!)"
            loading := false }).ui = _
        rw [hui]
        rfl
    · exact absurd hstep (by simp)

theorem expiry_not_due (m : Machine) (T : Timer) (id : ℕ) (ht : m.timers = [T])
    (hdue : m.now < T.deadline) : step m (.timerExpiry id) = none := by
  have hnot : ¬ T.deadline ≤ m.now := by omega
  simp only [step, ht, List.find?_cons, List.find?_nil]
  cases hid : (T.id == id) with
  | false => rfl
  | true => simp only [hnot, if_false]

theorem between_run (bs : List Event) (m : Machine) (T : Timer)
    (htab : m.ui.activeTab = .simulation) (ht : m.timers = [T])
    (hq : ∀ e ∈ bs, quiet e = true) (hdue : m.now + elapsed bs < T.deadline) :
    debounceCalls m bs = []
      ∧ ∀ m1 : Machine, run m bs = some m1 →
          deps m1.ui = deps m.ui ∧ m1.timers = [T] ∧ m1.now = m.now + elapsed bs := by
  induction bs generalizing m with
  | nil =>
    refine ⟨rfl, ?_⟩
    intro m1 hrun
    simp only [run, Option.some.injEq] at hrun
    subst hrun
    exact ⟨rfl, ht, rfl⟩
  | cons e es ih =>
    have hqe := hq e (List.mem_cons_self _ _)
    have hqs : ∀ e1 ∈ es, quiet e1 = true := fun e1 h1 => hq e1 (List.mem_cons_of_mem _ h1)
    rw [elapsed_cons] at hdue
    cases hs : step m e with
    | none =>
      refine ⟨by simp only [debounceCalls, hs], ?_⟩
      intro m1 hrun
      simp only [run, hs] at hrun
      exact absurd hrun (by simp)
    | some m2 =>
      have hne : ∀ id : ℕ, e ≠ .timerExpiry id := by
        intro id hid
        subst hid
        rw [expiry_not_due m T id ht (by omega)] at hs
        exact absurd hs (by simp)
      obtain ⟨hd, htm, hnow, hnone⟩ := quiet_step m m2 e htab hqe hne hs
      have htab2 : m2.ui.activeTab = .simulation := (congrArg Prod.snd hd).trans htab
      obtain ⟨hcalls, hfinal⟩ := ih m2 htab2 (htm.trans ht) hqs (by omega)
      refine ⟨by simp only [debounceCalls, hs, hnone, hcalls, Option.toList, List.append_nil], ?_⟩
      intro m1 hrun
      simp only [run, hs] at hrun
      obtain ⟨h1, h2, h3⟩ := hfinal m1 hrun
      refine ⟨h1.trans hd, h2, ?_⟩
      rw [elapsed_cons]
      omega

theorem edit_step (m : Machine) (which : ParamName) (value : ℚ) (hinv : TimerInv m)
    (htab : m.ui.activeTab = .simulation) (hch : m.ui.params.set which value ≠ m.ui.params) :
    ∃ m1 : Machine, ∃ T : Timer, step m (.editParam which value) = some m1 ∧ Armed m1 T
      ∧ m1.ui.params = m.ui.params.set which value
      ∧ started m (.editParam which value) = none := by
  have hs : (setParam m.ui which value).activeTab = .simulation := by
    rw [setParam_activeTab]
    exact htab
  have hdeps : ¬ deps (setParam m.ui which value) = deps m.ui := by
    intro h
    apply hch
    have hfst := congrArg Prod.fst h
    simp only [deps] at hfst
    rw [setParam_params] at hfst
    exact hfst
  have hcommit : commit m (setParam m.ui which value)
      = runEffect { m with ui := setParam m.ui which value } := by
    unfold commit
    rw [if_neg hdeps]
  have hinv1 : TimerInv { m with ui := setParam m.ui which value } := timerInv_ui m _ hinv
  refine ⟨commit m (setParam m.ui which value),
    ⟨m.nextTimerId, m.now + debounceMs, (setParam m.ui which value).activeTab,
      (setParam m.ui which value).params⟩, rfl, ?_, ?_, rfl⟩
  · rw [hcommit]
    refine ⟨timerInv_runEffect _ hinv1, hs, runEffect_timers _ hinv1, rfl, hs, rfl⟩
  · rw [commit_ui, setParam_params]

theorem later_run (later : List LaterEdit) (m : Machine) (T : Timer) (harmed : Armed m T)
    (hb : isBurst m.ui.params later = true) :
    debounceCalls m (laterEvents later) = []
      ∧ ∀ mB : Machine, run m (laterEvents later) = some mB →
          ∃ TB : Timer, Armed mB TB ∧ mB.ui.params = editAll m.ui.params later := by
  induction later generalizing m T with
  | nil =>
    refine ⟨rfl, ?_⟩
    intro mB hrun
    simp only [laterEvents, run, Option.some.injEq] at hrun
    subst hrun
    exact ⟨T, harmed, rfl⟩
  | cons e es ih =>
    obtain ⟨hinv, htab, ht, hdl, hTtab, hTp⟩ := harmed
    simp only [isBurst, Bool.and_eq_true, decide_eq_true_eq, List.all_eq_true] at hb
    obtain ⟨⟨⟨hquiet, hgap⟩, hch⟩, hrest⟩ := hb
    obtain ⟨hcalls, hfinal⟩ := between_run e.between m T htab ht hquiet (by omega)
    have hshape : laterEvents (e :: es)
        = e.between ++ (.editParam e.which e.value :: laterEvents es) := rfl
    rw [hshape]
    cases hrun1 : run m e.between with
    | none =>
      refine ⟨by rw [debounceCalls_append, hcalls, hrun1]; rfl, ?_⟩
      intro mB hrun
      rw [run_append, hrun1] at hrun
      exact absurd hrun (by simp)
    | some m1 =>
      obtain ⟨hd, htm, _⟩ := hfinal m1 hrun1
      have htab1 : m1.ui.activeTab = .simulation := (congrArg Prod.snd hd).trans htab
      have hp1 : m1.ui.params = m.ui.params := congrArg Prod.fst hd
      have hinv1 : TimerInv m1 := timerInv_run e.between m m1 hinv hrun1
      have hch1 : m1.ui.params.set e.which e.value ≠ m1.ui.params := by
        rw [hp1]
        exact hch
      obtain ⟨m2, T2, hs2, harmed2, hp2, hnone2⟩ :=
        edit_step m1 e.which e.value hinv1 htab1 hch1
      have hrest2 : isBurst m2.ui.params es = true := by
        rw [hp2, hp1]
        exact hrest
      obtain ⟨hcalls2, hfinal2⟩ := ih m2 T2 harmed2 hrest2
      constructor
      · rw [debounceCalls_append, hcalls, hrun1]
        simp only [debounceCalls, hs2, hnone2, hcalls2, Option.toList, List.append_nil]
      · intro mB hrun
        rw [run_append, hrun1] at hrun
        simp only [run, hs2] at hrun
        obtain ⟨TB, harmedB, hpB⟩ := hfinal2 mB hrun
        refine ⟨TB, harmedB, ?_⟩
        rw [hpB, hp2, hp1]
        rfl

theorem expiry_fires (m m2 : Machine) (T : Timer) (id : ℕ)
    (htab : m.ui.activeTab = .simulation) (ht : m.timers = [T])
    (hT : T.activeTab = .simulation) (hs : step m (.timerExpiry id) = some m2) :
    started m (.timerExpiry id) = some ⟨.debounce, requestBody T.params⟩
      ∧ m2.timers = [] ∧ m2.ui.activeTab = .simulation
      ∧ m2.inflight = m.inflight ++ [⟨.debounce, requestBody T.params⟩] := by
  have hinfl := step_started m m2 id hs
  simp only [step, ht, List.find?_cons, List.find?_nil] at hs
  cases hid : (T.id == id) with
  | false =>
    simp only [hid] at hs
    exact absurd hs (by simp)
  | true =>
    simp only [hid, hT, if_true] at hs
    split at hs
    · rename_i hdead
      simp only [Option.some.injEq] at hs
      have hstarted : started m (.timerExpiry id) = some ⟨.debounce, requestBody T.params⟩ := by
        simp only [started, ht, List.find?_cons, List.find?_nil, hid, hdead, hT, and_self,
          if_true]
      have hid1 : T.id = id := by simpa using hid
      have hclear : clearTimeout id [T] = [] := by
        simp [clearTimeout, List.filter_cons, hid1]
      rw [hstarted] at hinfl
      refine ⟨hstarted, ?_, ?_, hinfl⟩
      · subst hs
        obtain ⟨_, htm, _⟩ := commit_quiet { m with timers := clearTimeout id [T] }
          (runSimulationStart m.ui) (deps_start m.ui htab)
        show (commit { m with timers := clearTimeout id [T] } (runSimulationStart m.ui)).timers
          = []
        rw [htm]
        exact hclear
      · subst hs
        show (commit { m with timers := clearTimeout id [T] }
          (runSimulationStart m.ui)).ui.activeTab = .simulation
        rw [commit_ui]
        rfl
    · exact absurd hs (by simp)

theorem calls_after_fired (tail : List Event) (m : Machine)
    (htab : m.ui.activeTab = .simulation) (ht : m.timers = [])
    (hq : ∀ e ∈ tail, quiet e = true) :
    debounceCalls m tail = [] ∧ ∀ m1 : Machine, run m tail = some m1 → m1.timers = [] := by
  induction tail generalizing m with
  | nil =>
    refine ⟨rfl, ?_⟩
    intro m1 hrun
    simp only [run, Option.some.injEq] at hrun
    subst hrun
    exact ht
  | cons e es ih =>
    have hqe := hq e (List.mem_cons_self _ _)
    have hqs : ∀ e1 ∈ es, quiet e1 = true := fun e1 h1 => hq e1 (List.mem_cons_of_mem _ h1)
    cases hs : step m e with
    | none =>
      refine ⟨by simp only [debounceCalls, hs], ?_⟩
      intro m1 hrun
      simp only [run, hs] at hrun
      exact absurd hrun (by simp)
    | some m2 =>
      have hne : ∀ id : ℕ, e ≠ .timerExpiry id := by
        intro id hid
        subst hid
        simp only [step, ht, List.find?_nil] at hs
        exact absurd hs (by simp)
      obtain ⟨hd, htm, _, hnone⟩ := quiet_step m m2 e htab hqe hne hs
      have htab2 : m2.ui.activeTab = .simulation := (congrArg Prod.snd hd).trans htab
      obtain ⟨hcalls, hfinal⟩ := ih m2 htab2 (htm.trans ht) hqs
      refine ⟨by simp only [debounceCalls, hs, hnone, hcalls, Option.toList, List.append_nil], ?_⟩
      intro m1 hrun
      simp only [run, hs] at hrun
      exact hfinal m1 hrun

theorem calls_pending (tail : List Event) (m : Machine) (T : Timer)
    (htab : m.ui.activeTab = .simulation) (ht : m.timers = [T])
    (hT : T.activeTab = .simulation) (hq : ∀ e ∈ tail, quiet e = true) :
    (debounceCalls m tail = [] ∧ ∀ m1 : Machine, run m tail = some m1 → m1.timers = [T])
      ∨ (debounceCalls m tail = [⟨.debounce, requestBody T.params⟩]
          ∧ ∀ m1 : Machine, run m tail = some m1 → m1.timers = []) := by
  induction tail generalizing m with
  | nil =>
    left
    refine ⟨rfl, ?_⟩
    intro m1 hrun
    simp only [run, Option.some.injEq] at hrun
    subst hrun
    exact ht
  | cons e es ih =>
    have hqe := hq e (List.mem_cons_self _ _)
    have hqs : ∀ e1 ∈ es, quiet e1 = true := fun e1 h1 => hq e1 (List.mem_cons_of_mem _ h1)
    cases hs : step m e with
    | none =>
      left
      refine ⟨by simp only [debounceCalls, hs], ?_⟩
      intro m1 hrun
      simp only [run, hs] at hrun
      exact absurd hrun (by simp)
    | some m2 =>
      by_cases hexp : ∃ id : ℕ, e = .timerExpiry id
      · obtain ⟨id, hid⟩ := hexp
        subst hid
        obtain ⟨hstarted, htm2, htab2, _⟩ := expiry_fires m m2 T id htab ht hT hs
        obtain ⟨hcalls, hfinal⟩ := calls_after_fired es m2 htab2 htm2 hqs
        right
        refine ⟨by simp only [debounceCalls, hs, hstarted, hcalls, Option.toList,
          List.append_nil], ?_⟩
        intro m1 hrun
        simp only [run, hs] at hrun
        exact hfinal m1 hrun
      · have hne : ∀ id : ℕ, e ≠ .timerExpiry id := fun id hid => hexp ⟨id, hid⟩
        obtain ⟨hd, htm, _, hnone⟩ := quiet_step m m2 e htab hqe hne hs
        have htab2 : m2.ui.activeTab = .simulation := (congrArg Prod.snd hd).trans htab
        rcases ih m2 htab2 (htm.trans ht) hqs with ⟨hcalls, hfinal⟩ | ⟨hcalls, hfinal⟩
        · left
          refine ⟨by simp only [debounceCalls, hs, hnone, hcalls, Option.toList,
            List.append_nil], ?_⟩
          intro m1 hrun
          simp only [run, hs] at hrun
          exact hfinal m1 hrun
        · right
          refine ⟨by simp only [debounceCalls, hs, hnone, hcalls, Option.toList,
            List.nil_append], ?_⟩
          intro m1 hrun
          simp only [run, hs] at hrun
          exact hfinal m1 hrun

theorem step_inflight_silent (m m1 : Machine) (e : Event) (hsil : silent e = true)
    (hstep : step m e = some m1) : m1.inflight = m.inflight ++ (started m e).toList := by
  cases e with
  | manualRun => exact absurd hsil (by simp [silent])
  | response index x => exact absurd hsil (by simp [silent])
  | timerExpiry id => exact step_started m m1 id hstep
  | advance ms =>
    simp only [step, Option.some.injEq] at hstep
    subst hstep
    simp [started]
  | editParam which value =>
    simp only [step, Option.some.injEq] at hstep
    subst hstep
    simp [started, commit_inflight]
  | selectTab tab =>
    simp only [step, Option.some.injEq] at hstep
    subst hstep
    simp [started, commit_inflight]
  | reset =>
    simp only [step, Option.some.injEq] at hstep
    subst hstep
    simp [started, commit_inflight]
  | selectDept dept =>
    simp only [step, Option.some.injEq] at hstep
    subst hstep
    simp [started, commit_inflight]
  | search query =>
    simp only [step, Option.some.injEq] at hstep
    subst hstep
    simp [started, commit_inflight]
  | selectView view =>
    simp only [step, Option.some.injEq] at hstep
    subst hstep
    simp [started, commit_inflight]
  | directory result =>
    simp only [step] at hstep
    split at hstep
    · split at hstep
      · simp only [Option.some.injEq] at hstep
        subst hstep
        rename_i data
        show (commit m { m.ui with employees := data, loading := false }).inflight = _
        simp [started, commit_inflight]
      · simp only [Option.some.injEq] at hstep
        subst hstep
        show (commit m _).inflight = _
        simp [started, commit_inflight]
    · exact absurd hstep (by simp)

theorem run_inflight_silent (es : List Event) (m m1 : Machine)
    (hsil : ∀ e ∈ es, silent e = true) (hrun : run m es = some m1) :
    m1.inflight = m.inflight ++ debounceCalls m es := by
  induction es generalizing m with
  | nil =>
    simp only [run, Option.some.injEq] at hrun
    subst hrun
    simp [debounceCalls]
  | cons e es ih =>
    cases hs : step m e with
    | none =>
      simp only [run, hs] at hrun
      exact absurd hrun (by simp)
    | some m2 =>
      simp only [run, hs] at hrun
      have h2 := ih m2 (fun e1 h1 => hsil e1 (List.mem_cons_of_mem _ h1)) hrun
      have h1 := step_inflight_silent m m2 e (hsil e (List.mem_cons_self _ _)) hs
      simp only [debounceCalls, hs]
      rw [h2, h1, List.append_assoc]

theorem step_debounceInFlight (m m1 : Machine) (e : Event) (hstep : step m e = some m1) :
    (debounceInFlight m1).Sublist (debounceInFlight m ++ (started m e).toList) := by
  by_cases hsil : silent e = true
  · have h := step_inflight_silent m m1 e hsil hstep
    simp only [debounceInFlight, h, List.filter_append]
    exact List.Sublist.append (List.Sublist.refl _) (List.filter_sublist _)
  · cases e with
    | manualRun =>
      simp only [step, Option.some.injEq] at hstep
      subst hstep
      have hin : (invoke m .manual m.ui.params).inflight
          = m.inflight ++ [⟨.manual, requestBody m.ui.params⟩] := by
        show (commit m (runSimulationStart m.ui)).inflight ++ _ = _
        rw [commit_inflight]
      simp only [debounceInFlight, hin, List.filter_append]
      exact List.Sublist.append (List.Sublist.refl _) (by simp [started])
    | response index x =>
      simp only [step] at hstep
      split at hstep
      · exact absurd hstep (by simp)
      · simp only [Option.some.injEq] at hstep
        subst hstep
        have hin : (List.filter (fun r : Request => decide (r.origin = .debounce))
            ((commit m (runSimulationSettle m.ui x).1).inflight.eraseIdx index)).Sublist
            (debounceInFlight m) := by
          rw [commit_inflight]
          exact (List.eraseIdx_sublist m.inflight index).filter _
        exact hin.trans (List.sublist_append_left _ _)
    | advance ms => exact absurd rfl hsil
    | timerExpiry id => exact absurd rfl hsil
    | editParam which value => exact absurd rfl hsil
    | selectTab tab => exact absurd rfl hsil
    | reset => exact absurd rfl hsil
    | selectDept dept => exact absurd rfl hsil
    | search query => exact absurd rfl hsil
    | selectView view => exact absurd rfl hsil
    | directory result => exact absurd rfl hsil

theorem run_debounceInFlight (es : List Event) (m m1 : Machine) (hrun : run m es = some m1) :
    (debounceInFlight m1).Sublist (debounceInFlight m ++ debounceCalls m es) := by
  induction es generalizing m with
  | nil =>
    simp only [run, Option.some.injEq] at hrun
    subst hrun
    simp [debounceCalls]
  | cons e es ih =>
    cases hs : step m e with
    | none =>
      simp only [run, hs] at hrun
      exact absurd hrun (by simp)
    | some m2 =>
      simp only [run, hs] at hrun
      have h2 := ih m2 hrun
      have h1 := step_debounceInFlight m m2 e hs
      simp only [debounceCalls, hs]
      rw [← List.append_assoc]
      exact h2.trans (List.Sublist.append h1 (List.Sublist.refl _))

theorem armed_fires (mB : Machine) (TB : Timer) (harmed : Armed mB TB) :
    ∃ m1 : Machine, run mB [.advance debounceMs, .timerExpiry TB.id] = some m1
      ∧ m1.timers = []
      ∧ m1.inflight = mB.inflight ++ [⟨.debounce, requestBody TB.params⟩]
      ∧ debounceCalls mB [.advance debounceMs, .timerExpiry TB.id]
          = [⟨.debounce, requestBody TB.params⟩] := by
  obtain ⟨_, htab, ht, hdl, hTtab, _⟩ := harmed
  have hstepA : step mB (.advance debounceMs) = some { mB with now := mB.now + debounceMs } :=
    rfl
  have hex : ∃ m1 : Machine,
      step { mB with now := mB.now + debounceMs } (.timerExpiry TB.id) = some m1 := by
    simp only [step, ht, List.find?_cons, beq_self_eq_true, hdl, le_refl, if_true]
    exact ⟨_, rfl⟩
  obtain ⟨m1, hs1⟩ := hex
  obtain ⟨hstarted, htm, _, hinfl⟩ :=
    expiry_fires { mB with now := mB.now + debounceMs } m1 TB TB.id htab ht hTtab hs1
  have hsA : started mB (.advance debounceMs) = none := rfl
  refine ⟨m1, ?_, htm, hinfl, ?_⟩
  · simp only [run, hstepA, hs1]
  · simp only [debounceCalls, hstepA, hs1, hstarted, hsA, Option.toList, List.nil_append,
      List.append_nil]

/-- C12: from a reachable state with the simulation tab active, take a burst of edits (of
any length, five in particular) in which every edit moves its slider and comes less than
500 ms after the previous one, followed by any events that are neither an edit nor a tab
change.  No timer callback runs during the burst; afterwards at most one does, and its
request body holds the parameters left by the last edit; the run has made exactly that
one call once no timer is pending; and after the burst the timer does fire once 500 ms
have passed.  On the requests in flight: the burst adds no debounce request, the whole run
adds at most that one, and when no response arrives and Run is not clicked the list of
requests in flight is unchanged while the timer is pending and has grown by exactly that
one request once it has fired. -/
theorem debounce_burst_single_call (m : Machine) (hm : Reachable m)
    (htab : m.ui.activeTab = .simulation) (which : ParamName) (value : ℚ)
    (later : List LaterEdit) (hfirst : m.ui.params.set which value ≠ m.ui.params)
    (hburst : isBurst (m.ui.params.set which value) later = true) (tail : List Event)
    (hquiet : ∀ e ∈ tail, quiet e = true) :
    debounceCalls m (burstEvents which value later) = []
      ∧ (debounceCalls m (burstEvents which value later ++ tail) = []
          ∨ debounceCalls m (burstEvents which value later ++ tail)
              = [burstRequest m.ui.params which value later])
      ∧ (∀ m1 : Machine, run m (burstEvents which value later ++ tail) = some m1 →
          (m1.timers = [] →
              debounceCalls m (burstEvents which value later ++ tail)
                = [burstRequest m.ui.params which value later])
            ∧ (m1.timers ≠ [] →
              debounceCalls m (burstEvents which value later ++ tail) = []))
      ∧ (∀ mB : Machine, run m (burstEvents which value later) = some mB →
          ∃ (id : ℕ) (m1 : Machine),
            run mB [.advance debounceMs, .timerExpiry id] = some m1 ∧ m1.timers = []
              ∧ m1.inflight = mB.inflight ++ [burstRequest m.ui.params which value later]
              ∧ debounceCalls mB [.advance debounceMs, .timerExpiry id]
                  = [burstRequest m.ui.params which value later])
      ∧ (∀ mB : Machine, run m (burstEvents which value later) = some mB →
          (debounceInFlight mB).Sublist (debounceInFlight m)
            ∧ ((∀ e ∈ burstEvents which value later, silent e = true) →
                mB.inflight = m.inflight))
      ∧ (∀ m1 : Machine, run m (burstEvents which value later ++ tail) = some m1 →
          (debounceInFlight m1).Sublist
              (debounceInFlight m ++ [burstRequest m.ui.params which value later])
            ∧ ((∀ e ∈ burstEvents which value later ++ tail, silent e = true) →
                (m1.timers = [] →
                    m1.inflight
                      = m.inflight ++ [burstRequest m.ui.params which value later])
                  ∧ (m1.timers ≠ [] → m1.inflight = m.inflight))) := by
  have hinv := (reachable_timers m hm).1
  obtain ⟨m0, T0, hs0, harmed0, hp0, hnone0⟩ := edit_step m which value hinv htab hfirst
  have hburst0 : isBurst m0.ui.params later = true := by
    rw [hp0]
    exact hburst
  obtain ⟨hcallsL, hfinalL⟩ := later_run later m0 T0 harmed0 hburst0
  have hcallsB : debounceCalls m (burstEvents which value later) = [] := by
    simp only [burstEvents, debounceCalls, hs0, hnone0, hcallsL, Option.toList, List.append_nil]
  have hrunB : ∀ es : List Event,
      run m (burstEvents which value later ++ es) = (match run m0 (laterEvents later) with
        | some mB => run mB es
        | none => none) := by
    intro es
    show run m (.editParam which value :: (laterEvents later ++ es)) = _
    simp only [run, hs0]
    exact run_append _ _ m0
  have hcallsT : ∀ es : List Event,
      debounceCalls m (burstEvents which value later ++ es)
        = (match run m0 (laterEvents later) with
          | some mB => debounceCalls mB es
          | none => []) := by
    intro es
    show debounceCalls m (.editParam which value :: (laterEvents later ++ es)) = _
    simp only [debounceCalls, hs0, hnone0, Option.toList, List.nil_append]
    rw [debounceCalls_append, hcallsL]
    rfl
  have hreq : ∀ (mB : Machine) (TB : Timer), Armed mB TB →
      mB.ui.params = editAll m0.ui.params later →
      (⟨.debounce, requestBody TB.params⟩ : Request)
        = burstRequest m.ui.params which value later := by
    intro mB TB harmedB hpB
    simp only [burstRequest, harmedB.2.2.2.2.2, hpB, hp0]
  have hkey : (debounceCalls m (burstEvents which value later ++ tail) = []
        ∧ ∀ m1 : Machine, run m (burstEvents which value later ++ tail) = some m1 →
            m1.timers ≠ [])
      ∨ (debounceCalls m (burstEvents which value later ++ tail)
            = [burstRequest m.ui.params which value later]
        ∧ ∀ m1 : Machine, run m (burstEvents which value later ++ tail) = some m1 →
            m1.timers = []) := by
    rw [hcallsT tail, hrunB tail]
    cases hrunL : run m0 (laterEvents later) with
    | none =>
      left
      exact ⟨rfl, fun m1 h1 => absurd h1 (by simp)⟩
    | some mB =>
      obtain ⟨TB, harmedB, hpB⟩ := hfinalL mB hrunL
      rcases calls_pending tail mB TB harmedB.2.1 harmedB.2.2.1 harmedB.2.2.2.2.1 hquiet with
        ⟨hc, hf⟩ | ⟨hc, hf⟩
      · left
        refine ⟨hc, ?_⟩
        intro m1 h1 hnil
        have hT := hf m1 h1
        rw [hnil] at hT
        exact absurd hT (by simp)
      · right
        refine ⟨?_, hf⟩
        show debounceCalls mB tail = _
        rw [hc, hreq mB TB harmedB hpB]
  refine ⟨hcallsB, ?_, ?_, ?_, ?_, ?_⟩
  · rcases hkey with ⟨hc, _⟩ | ⟨hc, _⟩
    · exact Or.inl hc
    · exact Or.inr hc
  · intro m1 hrun
    rcases hkey with ⟨hc, hf⟩ | ⟨hc, hf⟩
    · exact ⟨fun hnil => absurd hnil (hf m1 hrun), fun _ => hc⟩
    · exact ⟨fun _ => hc, fun hne => absurd (hf m1 hrun) hne⟩
  · intro mB hrun
    have hrun0 : run m0 (laterEvents later) = some mB := by
      have h := hrunB []
      rw [List.append_nil, hrun] at h
      cases hrunL : run m0 (laterEvents later) with
      | none =>
        rw [hrunL] at h
        exact absurd h (by simp)
      | some mC =>
        rw [hrunL] at h
        simp only [run] at h
        rw [h]
    obtain ⟨TB, harmedB, hpB⟩ := hfinalL mB hrun0
    obtain ⟨m1, h1, h2, h3, h4⟩ := armed_fires mB TB harmedB
    rw [hreq mB TB harmedB hpB] at h3 h4
    exact ⟨TB.id, m1, h1, h2, h3, h4⟩
  · intro mB hrun
    constructor
    · have hsub := run_debounceInFlight _ m mB hrun
      rw [hcallsB, List.append_nil] at hsub
      exact hsub
    · intro hsil
      have hin := run_inflight_silent _ m mB hsil hrun
      rw [hcallsB, List.append_nil] at hin
      exact hin
  · intro m1 hrun
    have hsub := run_debounceInFlight _ m m1 hrun
    constructor
    · rcases hkey with ⟨hc, _⟩ | ⟨hc, _⟩
      · rw [hc, List.append_nil] at hsub
        exact hsub.trans (List.sublist_append_left _ _)
      · rw [hc] at hsub
        exact hsub
    · intro hsil
      have hin := run_inflight_silent _ m m1 hsil hrun
      rcases hkey with ⟨hc, hf⟩ | ⟨hc, hf⟩
      · rw [hc, List.append_nil] at hin
        exact ⟨fun hnil => absurd hnil (hf m1 hrun), fun _ => hin⟩
      · rw [hc] at hin
        exact ⟨fun _ => hin, fun hne => absurd (hf m1 hrun) hne⟩

set_option maxRecDepth 100000

/-- C12, for five edits on the simulation tab, 100, 100, 200 and 499 ms apart, followed by
500 ms and the expiry of the last timer: the run makes one call, and the one request in
flight at the end holds the parameters 500, 0.9, 65 and 75 left by the last edit. -/
theorem debounce_burst_single_call_witness :
    Reachable onSimulationTab ∧ onSimulationTab.ui.activeTab = .simulation
      ∧ onSimulationTab.ui.params.set .bradfordTrigger 450 ≠ onSimulationTab.ui.params
      ∧ isBurst (onSimulationTab.ui.params.set .bradfordTrigger 450) exampleLaterEdits = true
      ∧ (∀ e ∈ [Event.advance 500, Event.timerExpiry 6], quiet e = true)
      ∧ exampleLaterEdits.length = 4
      ∧ onSimulationTab.inflight = []
      ∧ debounceCalls onSimulationTab
            (burstEvents .bradfordTrigger 450 exampleLaterEdits ++ [.advance 500, .timerExpiry 6])
          = [⟨.debounce, ⟨500, 9 / 10, 65, 75⟩⟩]
      ∧ (run onSimulationTab
            (burstEvents .bradfordTrigger 450 exampleLaterEdits
              ++ [.advance 500, .timerExpiry 6])).map (fun m => (m.inflight, m.timers))
          = some ([⟨.debounce, ⟨500, 9 / 10, 65, 75⟩⟩], [])
      ∧ (run onSimulationTab (burstEvents .bradfordTrigger 450 exampleLaterEdits)).map
            (fun m => m.inflight) = some []
      ∧ (debounceCalls onSimulationTab
            (burstEvents .bradfordTrigger 450 exampleLaterEdits ++ [.advance 500, .timerExpiry 6])
          = []
        ∨ debounceCalls onSimulationTab
            (burstEvents .bradfordTrigger 450 exampleLaterEdits ++ [.advance 500, .timerExpiry 6])
          = [burstRequest onSimulationTab.ui.params .bradfordTrigger 450 exampleLaterEdits]) :=
  ⟨⟨[.directory (some exampleDirectory), .selectTab .simulation], by with_unfolding_all rfl⟩,
    by with_unfolding_all rfl, by with_unfolding_all decide, by with_unfolding_all rfl,
    by decide, rfl, by with_unfolding_all rfl, by with_unfolding_all rfl,
    by with_unfolding_all rfl, by with_unfolding_all rfl,
    (debounce_burst_single_call onSimulationTab
      ⟨[.directory (some exampleDirectory), .selectTab .simulation], by with_unfolding_all rfl⟩
      (by with_unfolding_all rfl) .bradfordTrigger 450 exampleLaterEdits
      (by with_unfolding_all decide) (by with_unfolding_all rfl)
      [.advance 500, .timerExpiry 6] (by decide)).2.1⟩

end HRSim
